import Mathlib

/-!
# Verification of the matching engine (src/index.js)

A shallow embedding of the single-product order-matching engine.

The repository ships one source file, `src/index.js` (the `Matcher`).  The
order book itself (`./lib/order_book`) and the order parser (`./lib/order`)
are required by `index.js` but are not part of `src/`; everything about them
is modelled from the specification (see the doc comments marked
`Modelled from the spec:`).  Everything else — the feed publisher
`send_feed_msg`, the book event listeners, the snapshot writer `write_state`,
the recovery chain `Matcher.prototype.recover`, and the per-connection
message dispatch in `Matcher.prototype.start` — is translated directly from
`src/index.js`.

Conventions of the embedding:
* JS numbers used as counters/prices/sizes are `Nat` (the spec declares
  prices and sizes to be positive integral minor units, and the counters
  `state_num`/`output_seq` only ever increment from 0).
* Wall-clock fields (`timestamp`, `exchange_time`) and the random uuid of a
  match envelope are omitted: they carry no state and no claim mentions them.
* Asynchronous callback completion is rendered as sequential execution in
  completion order, which is the engine's own single-writer discipline; where
  a claim is about *when* a callback runs, an explicit action trace is used.
* File-system results are passed in as `Except` values; the directory listing
  of matcher state files is abstracted to the list of their numeric suffixes
  (the only part of the file name the code inspects).
-/

/-- Order side.  Modelled from the spec: §3, `side`: variant Buy=0, Sell=1.
`lib/order.js` is not in src; journal/snapshot payloads carry 0/1. -/
inductive Side where
  | buy
  | sell
deriving DecidableEq, Repr

/-- An order.  Modelled from the spec: §3 "Order" (`lib/order.js` is not in
src).  `received_ts` is reporting metadata only and is omitted; priority is
positional (FIFO), not timestamp-based. -/
structure Order where
  id : String
  sender : String
  side : Side
  price : Nat
  size : Nat
  done : Bool
deriving DecidableEq, Repr

/-- The order book: both sides as flat lists in priority order (bids best =
highest price first, asks best = lowest price first; FIFO within a price).
Modelled from the spec: §3 BookSide/PriceLevel (`lib/order_book.js` is not in
src).  The price-level map plus id index of the spec is represented by the
flattened priority-ordered sequence per side, which carries the same
information for the operations used here. -/
structure OrderBook where
  bids : List Order
  asks : List Order
deriving DecidableEq, Repr

/-- Events emitted by the book, as consumed by the listeners installed in
`Matcher.prototype.start` (src/index.js lines 285-332). -/
inductive BookEvent where
  | add_order (o : Order)
  | matchEv (size : Nat) (taker provider : Order)
  | remove_order (o : Order)
deriving DecidableEq, Repr

/-- Whether the incoming `taker` can trade against resting `provider`.
Modelled from the spec: §4.1 "Buy is crossable if order.price ≥
best_ask.price; Sell is crossable if order.price ≤ best_bid.price". -/
def crosses (taker provider : Order) : Bool :=
  match taker.side with
  | .buy => decide (provider.price ≤ taker.price)
  | .sell => decide (taker.price ≤ provider.price)

/-- One round of the matching loop against the opposite side (best first).
Modelled from the spec: §4.1 matching rule — trade `min` sizes at the
provider's price, set `done` when a size reaches 0, emit `match` then
`remove_order` for each fully consumed order, stop when the taker is done or
no longer crosses.  Returns the residual taker, the remaining opposite side,
and the events in emission order. -/
def matchLoop (taker : Order) : List Order → Order × List Order × List BookEvent
  | [] => (taker, [], [])
  | p :: rest =>
    if 0 < taker.size ∧ crosses taker p then
      let ts := min taker.size p.size
      let taker1 : Order :=
        { taker with size := taker.size - ts,
                     done := if taker.size - ts = 0 then true else taker.done }
      let p1 : Order :=
        { p with size := p.size - ts,
                 done := if p.size - ts = 0 then true else p.done }
      let mev := BookEvent.matchEv ts taker1 p1
      if p1.size = 0 then
        if taker1.size = 0 then
          (taker1, rest, [mev, .remove_order p1, .remove_order taker1])
        else
          let r := matchLoop taker1 rest
          (r.1, r.2.1, mev :: .remove_order p1 :: r.2.2)
      else
        if taker1.size = 0 then
          (taker1, p1 :: rest, [mev, .remove_order taker1])
        else
          (taker1, p1 :: rest, [mev])
    else
      (taker, p :: rest, [])

/-- Insert a residual buy order at the tail of its price level: before the
first strictly lower-priced bid.  Modelled from the spec: §4.1 "insert it at
the tail of its price level on its own side". -/
def insertBid (o : Order) : List Order → List Order
  | [] => [o]
  | x :: xs => if x.price < o.price then o :: x :: xs else x :: insertBid o xs

/-- Insert a residual sell order at the tail of its price level: before the
first strictly higher-priced ask. -/
def insertAsk (o : Order) : List Order → List Order
  | [] => [o]
  | x :: xs => if o.price < x.price then o :: x :: xs else x :: insertAsk o xs

/-- `OrderBook.add`.  Modelled from the spec: §4.1 `add(order)` — match
against the opposite side while crossable, then rest the residual (if any) on
its own side, emitting `add_order` for it. -/
def OrderBook.add (b : OrderBook) (o : Order) : OrderBook × List BookEvent :=
  match o.side with
  | .buy =>
    let r := matchLoop o b.asks
    if 0 < r.1.size then
      (⟨insertBid r.1 b.bids, r.2.1⟩, r.2.2 ++ [.add_order r.1])
    else
      (⟨b.bids, r.2.1⟩, r.2.2)
  | .sell =>
    let r := matchLoop o b.bids
    if 0 < r.1.size then
      (⟨r.2.1, insertAsk r.1 b.asks⟩, r.2.2 ++ [.add_order r.1])
    else
      (⟨r.2.1, b.asks⟩, r.2.2)

/-- Cancellation failure, as returned (not emitted) by `remove`.  Modelled
from the spec: §4.1 NotFound / NotOwner. -/
inductive RemoveError where
  | not_found
  | not_owner
deriving DecidableEq, Repr

/-- The `.message` of a remove error, used as `reject_reason`
(src/index.js line 199).  Modelled from the spec: scenario S4 gives
`reject_reason:"not owner"`; the not-found message is analogous. -/
def RemoveError.message : RemoveError → String
  | .not_found => "not found"
  | .not_owner => "not owner"

/-- Remove the first order with the given id from one side, provided the
sender matches; id present with a different sender is `not_owner`. -/
def removeFrom (oid sender : String) : List Order → Except RemoveError (Order × List Order)
  | [] => .error .not_found
  | o :: rest =>
    if o.id = oid then
      if o.sender = sender then .ok (o, rest)
      else .error .not_owner
    else
      match removeFrom oid sender rest with
      | .ok (f, rest') => .ok (f, o :: rest')
      | .error e => .error e

/-- `OrderBook.remove(order_id, sender)`.  Modelled from the spec: §4.1
`remove` — succeed only if the id exists and the recorded sender matches,
unlink the order and return it (its `remove_order` event is emitted by the
caller's event wiring); on failure return the error and emit nothing.  The
removed resting order is returned as it rested (`done = false`), which is
what scenario S3 and the `reason` mapping of the feed listener require. -/
def OrderBook.remove (b : OrderBook) (oid sender : String) :
    Except RemoveError (OrderBook × Order) :=
  match removeFrom oid sender b.bids with
  | .ok (o, bids') => .ok (⟨bids', b.asks⟩, o)
  | .error .not_owner => .error .not_owner
  | .error .not_found =>
    match removeFrom oid sender b.asks with
    | .ok (o, asks') => .ok (⟨b.bids, asks'⟩, o)
    | .error e => .error e

/-- Payload of an outbound feed envelope, per the listeners and handlers in
src/index.js (lines 161-175, 286-332).  The random `id` of a match and the
wall-clock fields are omitted. -/
inductive FeedPayload where
  | status_received (side : Side) (order_id sender : String) (price size : Nat)
  | status_open (side : Side) (order_id sender : String) (price size : Nat)
  | status_done (order_id : String) (size price : Nat) (side : Side)
      (user_id : String) (reason : String)
  | matchInfo (taker_id provider_id taker_user_id provider_user_id : String)
      (size price : Nat) (taker_side : Side) (taker_original_limit : Nat)
      (taker_done provider_done : Bool)
deriving DecidableEq, Repr

/-- An outbound feed envelope as built by `send_feed_msg`
(src/index.js lines 235-264): `type`, stamped `seq`, payload
(`timestamp` omitted). -/
structure FeedMsg where
  type : String
  seq : Nat
  payload : FeedPayload
deriving DecidableEq, Repr

/-- Translation of a book event into the feed envelope published by the
listeners installed on `order_book` (src/index.js lines 285-332), stamped
with the given sequence number.  In particular a `remove_order` becomes an
`order_status` with `reason = (order.done) ? 'filled' : 'cancelled'`
(lines 321-331). -/
def feedEnvelope (q : Nat) : BookEvent → FeedMsg
  | .add_order o =>
    ⟨"order_status", q, .status_open o.side o.id o.sender o.price o.size⟩
  | .matchEv s t p =>
    ⟨"match", q, .matchInfo t.id p.id t.sender p.sender s p.price t.side t.price
        t.done p.done⟩
  | .remove_order o =>
    ⟨"order_status", q, .status_done o.id o.size o.price o.side o.sender
        (if o.done then "filled" else "cancelled")⟩

/-- Publish a list of book events via `send_feed_msg`: each envelope is
stamped with the current `output_seq`, which is then incremented
(src/index.js lines 235-264).  Returns the final `output_seq` and the
envelopes in publication order. -/
def publishEvents (q : Nat) : List BookEvent → Nat × List FeedMsg
  | [] => (q, [])
  | ev :: rest =>
    let r := publishEvents (q + 1) rest
    (r.1, feedEnvelope q ev :: r.2)

/-- The matcher's mutable state (src/index.js lines 26-33):
`state_num`, `output_seq`, and the order book. -/
structure Matcher where
  order_book : OrderBook
  state_num : Nat
  output_seq : Nat
deriving DecidableEq, Repr

/-- A fresh matcher (constructor, src/index.js lines 26-33). -/
def initMatcher : Matcher := ⟨⟨[], []⟩, 0, 0⟩

/-- The `order` handler of `_get_handler` (src/index.js lines 161-184):
publish `order_status received` (stamping and incrementing `output_seq`),
then `order_book.add`, whose events are published by the installed
listeners.  Returns the new state and the envelopes in publication order. -/
def applyOrder (st : Matcher) (o : Order) : Matcher × List FeedMsg :=
  let recvd : FeedMsg :=
    ⟨"order_status", st.output_seq, .status_received o.side o.id o.sender o.price o.size⟩
  let r := st.order_book.add o
  let pb := publishEvents (st.output_seq + 1) r.2
  (⟨r.1, st.state_num, pb.1⟩, recvd :: pb.2)

/-- The reply envelope sent on a rejected cancel
(src/index.js lines 192-202). -/
structure CancelReject where
  target_id : String
  order_id : String
  reject_reason : String
deriving DecidableEq, Repr

/-- The `cancel` handler of `_get_handler` (src/index.js lines 185-206):
`order_book.remove`; on error a `cancel_reject` reply is emitted only when a
reply emitter `ev` is present (`if (result && ev)`), and no feed event is
published; on success the book's `remove_order` event is published to the
feed by the installed listener.  `hasEv` says whether the handler was
obtained with the optional event emitter (steady state: yes; recovery
replay, src/index.js line 131: no). -/
def cancelHandler (hasEv : Bool) (st : Matcher) (oid sender : String) :
    Matcher × List FeedMsg × Option CancelReject :=
  match st.order_book.remove oid sender with
  | .error e =>
    (st, [], if hasEv then some ⟨sender, oid, e.message⟩ else none)
  | .ok (book', ord) =>
    let pb := publishEvents st.output_seq [.remove_order ord]
    (⟨book', st.state_num, pb.1⟩, pb.2, none)

/-- Snapshot content (`EngineState`), as captured by `Matcher.prototype.state`
and `write_state` (src/index.js lines 268-282, 417-422). -/
structure Snapshot where
  bids : List Order
  asks : List Order
  state_num : Nat
  output_seq : Nat
deriving DecidableEq, Repr

/-- A record of the inbound journal: the journaled client inputs and the
snapshot markers (src/index.js lines 271, 395). -/
inductive JRecord where
  | order (id sender : String) (side : Side) (price size : Nat)
  | cancel (order_id sender_id : String)
  | state (payload : Nat)
deriving DecidableEq, Repr

/-- `write_state` (src/index.js lines 268-282): let `n = state_num`; append
the marker `state(n)` to the inbound journal; once that append completes,
capture the engine state with `state_num = n + 1` and the current
`output_seq` and write it to the file numbered `n`; `state_num` is
incremented exactly once.  Returns the new matcher state, the journaled
marker, and the `(file number, snapshot)` pair. -/
def write_state (st : Matcher) : Matcher × JRecord × (Nat × Snapshot) :=
  let n := st.state_num
  let snap : Snapshot :=
    ⟨st.order_book.bids, st.order_book.asks, n + 1, st.output_seq⟩
  (⟨st.order_book, n + 1, st.output_seq⟩, .state n, (n, snap))

/-- The state-file name for generation `n` (src/index.js line 270, without
the directory part): `matcher_state.<product>.<n>.json`. -/
def stateFileName (product : String) (n : Nat) : String :=
  "matcher_state" ++ "." ++ product ++ "." ++ toString n ++ ".json"

/-- A state-affecting client input, or an on-demand `state` request
(src/index.js lines 373-399). -/
inductive Input where
  | order (id sender : String) (side : Side) (price size : Nat)
  | cancel (order_id sender_id : String)
  | stateReq
deriving DecidableEq, Repr

/-- Result of running the engine over a list of inputs: final state, the
inbound journal, the written snapshot files as `(number, content)` pairs,
and every feed envelope published, in order. -/
structure RunOut where
  st : Matcher
  journal : List JRecord
  snaps : List (Nat × Snapshot)
  feed : List FeedMsg
deriving DecidableEq, Repr

/-- Processing of one accepted input at steady state (src/index.js
lines 373-399): `order` and `cancel` are journaled and then handled (with
the reply emitter present); a `state` request runs `write_state`. -/
def stepInput (st : Matcher) : Input → RunOut
  | .order id sender side price size =>
    let r := applyOrder st ⟨id, sender, side, price, size, false⟩
    ⟨r.1, [.order id sender side price size], [], r.2⟩
  | .cancel oid sid =>
    let r := cancelHandler true st oid sid
    ⟨r.1, [.cancel oid sid], [], r.2.1⟩
  | .stateReq =>
    let r := write_state st
    ⟨r.1, [r.2.1], [r.2.2], []⟩

/-- Run the engine from a given state over a list of inputs, accumulating
journal, snapshots and feed. -/
def runFrom (st : Matcher) : List Input → RunOut
  | [] => ⟨st, [], [], []⟩
  | i :: rest =>
    let a := stepInput st i
    let b := runFrom a.st rest
    ⟨b.st, a.journal ++ b.journal, a.snaps ++ b.snaps, a.feed ++ b.feed⟩

/-- A full first lifetime of the engine: `start` writes an initial snapshot
before accepting clients (src/index.js lines 337-346), then the inputs are
processed. -/
def engineRun (inputs : List Input) : RunOut :=
  let w := write_state initMatcher
  let b := runFrom w.1 inputs
  ⟨b.st, w.2.1 :: b.journal, w.2.2 :: b.snaps, b.feed⟩

/-- Pick the state file with the greatest numeric suffix: the code sorts the
matching files by descending number and takes the first
(src/index.js lines 71-73). -/
def pickLatest : List Nat → Option Nat
  | [] => none
  | n :: rest =>
    match pickLatest rest with
    | none => some n
    | some m => some (if n < m then m else n)

/-- Snapshot loading during recovery (src/index.js lines 84-102): every
stored bid is re-added with `side := 0` and every stored ask with
`side := 1` via `order_book.add`; the installed listeners are already live,
so each `add` publishes its events through `send_feed_msg` (incrementing the
matcher's current `output_seq` as it goes); only afterwards are `state_num`
and `output_seq` overwritten from the snapshot. -/
def loadStep (p : Matcher × List FeedMsg) (o : Order) : Matcher × List FeedMsg :=
  let r := p.1.order_book.add o
  let pb := publishEvents p.1.output_seq r.2
  (⟨r.1, p.1.state_num, pb.1⟩, p.2 ++ pb.2)

/-- See `loadStep` for the per-order step (one `order_book.add` with the
live listeners publishing through `send_feed_msg`). -/
def loadSnapshot (st : Matcher) (snap : Snapshot) : Matcher × List FeedMsg :=
  let p1 := (snap.bids.map fun od => { od with side := Side.buy }).foldl loadStep (st, [])
  let p2 := (snap.asks.map fun od => { od with side := Side.sell }).foldl loadStep p1
  (⟨p2.1.order_book, snap.state_num, snap.output_seq⟩, p2.2)

/-- Replay one journal record during recovery (src/index.js lines 129-137):
the handlers are obtained from `_get_handler` without a reply emitter, with
feed publishing enabled; a record with no handler (`state`) is skipped with
a warning. -/
def replayRecord (st : Matcher) : JRecord → Matcher × List FeedMsg
  | .order id sender side price size =>
    applyOrder st ⟨id, sender, side, price, size, false⟩
  | .cancel oid sid =>
    let r := cancelHandler false st oid sid
    (r.1, r.2.1)
  | .state _ => (st, [])

/-- The journal scan of recovery (src/index.js lines 114-139): skip every
record until `state(jsn)` is seen; from the record after that marker,
dispatch each record to its replay handler.  Returns the final state,
whether the marker was found (`playback`), and the republished feed. -/
def replayLines (jsn : Nat) (st : Matcher) (playback : Bool) :
    List JRecord → Matcher × Bool × List FeedMsg
  | [] => (st, playback, [])
  | r :: rest =>
    if r = .state jsn then replayLines jsn st true rest
    else if playback then
      let a := replayRecord st r
      let b := replayLines jsn a.1 true rest
      (b.1, b.2.1, a.2 ++ b.2.2)
    else replayLines jsn st playback rest

/-- Outcome of `Matcher.prototype.recover` (src/index.js lines 39-151).
`cb_calls` lists each invocation of the caller's callback (`some e` when it
was invoked with an error, `none` for success); `crashed` records that after
the last callback call the chain continued into a statement that throws —
the error branches at lines 50-54, 78-82 and 108-112 invoke `cb(err)` but do
not return, so execution falls through to `files.forEach` /
`JSON.parse(data)` / `data.split` on an undefined value. -/
structure ROut where
  cb_calls : List (Option String)
  crashed : Bool
  pubs : List FeedMsg
  st : Matcher
  markerFound : Bool
deriving DecidableEq, Repr

/-- `Matcher.prototype.recover` (src/index.js lines 39-151), over the
results of the three file-system reads: the numeric suffixes of the matching
state files, the parsed content of the chosen state file, and the parsed
lines of the inbound journal.  With no state files the matcher is left
untouched and the callback is invoked without an error (line 68).  Otherwise
the latest snapshot is loaded, `journal_state_num = state_num - 1` is
computed, and the journal is scanned and replayed; if the marker was never
seen an error is logged (line 143) but the callback is still invoked without
an error. -/
def recover (st : Matcher) (dirRes : Except String (List Nat))
    (readSnapFile : Nat → Except String Snapshot)
    (journalRes : Except String (List JRecord)) : ROut :=
  match dirRes with
  | .error e => ⟨[some e], true, [], st, false⟩
  | .ok nums =>
    match pickLatest nums with
    | none => ⟨[none], false, [], st, false⟩
    | some n =>
      match readSnapFile n with
      | .error e => ⟨[some e], true, [], st, false⟩
      | .ok snap =>
        let l := loadSnapshot st snap
        match journalRes with
        | .error e => ⟨[some e], true, l.2, l.1, false⟩
        | .ok lines =>
          let jsn := l.1.state_num - 1
          let rp := replayLines jsn l.1 false lines
          ⟨[none], false, l.2 ++ rp.2.2, rp.1, rp.2.1⟩

/-- Read a state file by number, given the set of written snapshot files. -/
def snapFileOf (snaps : List (Nat × Snapshot)) (n : Nat) : Except String Snapshot :=
  match snaps.find? (fun p => p.1 = n) with
  | some p => .ok p.2
  | none => .error "could not read matcher state file"

/-- An inbound message as decoded on a connection
(src/index.js lines 373-399); `hasPayload` models the
`if (!msg.payload)` guard inside the journal callback. -/
inductive InMsg where
  | order (id sender : String) (side : Side) (price size : Nat) (hasPayload : Bool)
  | cancel (order_id sender_id : String) (hasPayload : Bool)
  | stateMsg
  | other (t : String)
deriving DecidableEq, Repr

/-- Observable actions of the connection message handler, in execution
order. -/
inductive Act where
  | journal_append_done (r : JRecord)
  | feed_pub (m : FeedMsg)
  | book_mut
  | client_reply (r : CancelReject)
  | state_file (n : Nat) (s : Snapshot)
  | state_reply (s : Snapshot)
  | warn
deriving DecidableEq, Repr

/-- The `'msg'` listener of a connection (src/index.js lines 373-400) as an
action trace: a message with a handler is appended to the inbound journal
and the handler runs only inside the append-completion callback
(`journal.log(msg, function() ... handler(msg.payload))`); a `state` message
runs `write_state` (marker append, then capture/write/reply inside its
callback); an unknown type is only warned about. -/
def msgTrace (st : Matcher) : InMsg → Matcher × List Act
  | .order id sender side price size hasPayload =>
    let jr := JRecord.order id sender side price size
    if hasPayload then
      let recvd : FeedMsg :=
        ⟨"order_status", st.output_seq, .status_received side id sender price size⟩
      let r := st.order_book.add ⟨id, sender, side, price, size, false⟩
      let pb := publishEvents (st.output_seq + 1) r.2
      (⟨r.1, st.state_num, pb.1⟩,
        .journal_append_done jr :: .feed_pub recvd :: .book_mut ::
          pb.2.map .feed_pub)
    else
      (st, [.journal_append_done jr, .warn])
  | .cancel oid sid hasPayload =>
    let r := JRecord.cancel oid sid
    if hasPayload then
      let a := cancelHandler true st oid sid
      (a.1, .journal_append_done r :: .book_mut ::
        (a.2.1.map .feed_pub ++ (a.2.2.map .client_reply).toList))
    else
      (st, [.journal_append_done r, .warn])
  | .stateMsg =>
    let w := write_state st
    (w.1, [.journal_append_done w.2.1, .state_file w.2.2.1 w.2.2.2,
           .state_reply w.2.2.2])
  | .other _ => (st, [.warn])

/-- Actions that apply an input to the engine's observable state: a book
mutation or a feed publication. -/
def Act.isStateEffect : Act → Bool
  | .feed_pub _ => true
  | .book_mut => true
  | _ => false

/-- Whether a feed envelope mentions the order id `x` (as an order id, not a
user id). -/
def FeedMsg.mentions (m : FeedMsg) (x : String) : Bool :=
  match m.payload with
  | .status_received _ oid _ _ _ => oid == x
  | .status_open _ oid _ _ _ => oid == x
  | .status_done oid _ _ _ _ _ => oid == x
  | .matchInfo tid pid _ _ _ _ _ _ _ _ => tid == x || pid == x

/-- The ids of the `order` inputs of a list, in order. -/
def orderIdsOf : List Input → List String
  | [] => []
  | .order id _ _ _ _ :: rest => id :: orderIdsOf rest
  | _ :: rest => orderIdsOf rest

/-- The ids of all orders resting in the book. -/
def OrderBook.ids (b : OrderBook) : List String :=
  (b.bids ++ b.asks).map Order.id

/-- The order ids a book event refers to. -/
def BookEvent.ids : BookEvent → List String
  | .add_order o => [o.id]
  | .matchEv _ t p => [t.id, p.id]
  | .remove_order o => [o.id]

/-- Well-formedness of the book, the invariants of spec §3: each side sorted
by price priority (bids descending, asks ascending, FIFO within a price),
every resting order live (`size > 0`, `done = false`) and on its own side,
and the book uncrossed. -/
def BookWF (b : OrderBook) : Prop :=
  List.Pairwise (fun x y : Order => y.price ≤ x.price) b.bids ∧
  List.Pairwise (fun x y : Order => x.price ≤ y.price) b.asks ∧
  (∀ o ∈ b.bids, o.side = Side.buy ∧ 0 < o.size ∧ o.done = false) ∧
  (∀ o ∈ b.asks, o.side = Side.sell ∧ 0 < o.size ∧ o.done = false) ∧
  (∀ x ∈ b.bids, ∀ y ∈ b.asks, x.price < y.price)

/-- Whether a feed envelope is an `order_status` with status `open` (the
only kind of envelope an uncrossed snapshot load may produce). -/
def FeedMsg.isOpen (m : FeedMsg) : Bool :=
  m.type == "order_status" &&
    match m.payload with
    | .status_open _ _ _ _ _ => true
    | _ => false

/-- The state reached by replaying a list of journal records through the
steady-state handlers (the feed they republish is tracked separately). -/
def replayList (st : Matcher) : List JRecord → Matcher
  | [] => st
  | r :: rest => replayList (replayRecord st r).1 rest

/-- The matcher state a snapshot denotes. -/
def snapMatcher (snap : Snapshot) : Matcher :=
  ⟨⟨snap.bids, snap.asks⟩, snap.state_num, snap.output_seq⟩

/-- The inductive invariant tying a running engine to its inbound journal
and snapshot files: the book is well-formed, and the journal splits at the
marker of the latest snapshot so that replaying the records after that
marker from the snapshot state reproduces the current state exactly. -/
structure RunInv (st : Matcher) (journal : List JRecord)
    (snaps : List (Nat × Snapshot)) : Prop where
  wf : BookWF st.order_book
  ex : ∃ (pre suf : List JRecord) (n : Nat) (snap : Snapshot),
    journal = pre ++ JRecord.state n :: suf ∧
    snaps.getLast? = some (n, snap) ∧
    (snaps.map Prod.fst).Pairwise (· < ·) ∧
    snap.state_num = n + 1 ∧
    BookWF ⟨snap.bids, snap.asks⟩ ∧
    (∀ k, JRecord.state k ∈ pre → k < n) ∧
    (∀ r ∈ suf, ∀ k, r ≠ JRecord.state k) ∧
    replayList (snapMatcher snap) suf = st

/-! ## Basic handler lemmas and the simpler claims -/

/-- C2: for every state-affecting input (`order` or `cancel`) received on a
connection, the first action of its processing is the inbound-journal append
completion for that very message, and every book mutation or feed
publication occurs strictly after it: the handler runs only inside the
append-completion callback. -/
theorem journaled_before_applied (st : Matcher) (id sender : String) (side : Side)
    (price size : Nat) (oid sid : String) (hp hp' : Bool) :
    ((msgTrace st (.order id sender side price size hp)).2.head? =
        some (.journal_append_done (.order id sender side price size)) ∧
      ∀ i a, (msgTrace st (.order id sender side price size hp)).2.get? i = some a →
        a.isStateEffect = true → 0 < i) ∧
    ((msgTrace st (.cancel oid sid hp')).2.head? =
        some (.journal_append_done (.cancel oid sid)) ∧
      ∀ i a, (msgTrace st (.cancel oid sid hp')).2.get? i = some a →
        a.isStateEffect = true → 0 < i) := by
  constructor
  · constructor
    · cases hp <;> simp [msgTrace]
    · intro i a h hse
      cases i with
      | zero =>
        cases hp <;> simp [msgTrace] at h <;> simp [← h, Act.isStateEffect] at hse
      | succ n => exact Nat.succ_pos n
  · constructor
    · cases hp' <;> simp [msgTrace]
    · intro i a h hse
      cases i with
      | zero =>
        cases hp' <;> simp [msgTrace] at h <;> simp [← h, Act.isStateEffect] at hse
      | succ n => exact Nat.succ_pos n

/-- C4: `write_state` with current generation `n` journals the marker
`state(n)`; only after that append completes is the state captured (as the
trace shows) and written to the file numbered `n`, whose name ends in
`.<n>.json`; the captured state has `state_num = n + 1` and the current
`output_seq`; `state_num` is incremented exactly once. -/
theorem write_state_snapshot_protocol (st : Matcher) (product : String) :
    (write_state st).2.1 = JRecord.state st.state_num ∧
    (write_state st).2.2.1 = st.state_num ∧
    (write_state st).2.2.2.state_num = st.state_num + 1 ∧
    (write_state st).2.2.2.output_seq = st.output_seq ∧
    (write_state st).2.2.2.bids = st.order_book.bids ∧
    (write_state st).2.2.2.asks = st.order_book.asks ∧
    (write_state st).1.state_num = st.state_num + 1 ∧
    (write_state st).1.order_book = st.order_book ∧
    (write_state st).1.output_seq = st.output_seq ∧
    (msgTrace st .stateMsg).2.head? =
      some (.journal_append_done (JRecord.state st.state_num)) ∧
    (msgTrace st .stateMsg).2.get? 1 =
      some (.state_file st.state_num (write_state st).2.2.2) ∧
    (∃ s, stateFileName product st.state_num =
      s ++ ("." ++ toString st.state_num ++ ".json")) := by
  refine ⟨rfl, rfl, rfl, rfl, rfl, rfl, rfl, rfl, rfl, rfl, rfl, ?_⟩
  exact ⟨"matcher_state" ++ "." ++ product, by simp [stateFileName, String.append_assoc]⟩

/-- C7: a cancel whose `OrderBook.remove` fails (id not found or sender
mismatch) produces, at steady state (reply emitter present), a
`cancel_reject` reply carrying the order id and the error's message as
`reject_reason`; no feed envelope is published and the book (indeed the
whole matcher state) is unchanged. -/
theorem cancel_reject_on_error (st : Matcher) (oid sid : String) (e : RemoveError)
    (h : st.order_book.remove oid sid = .error e) :
    cancelHandler true st oid sid = (st, [], some ⟨sid, oid, e.message⟩) := by
  simp [cancelHandler, h]

/-- Witness for `cancel_reject_on_error`: cancelling an unknown id on a
fresh matcher is rejected with reason "not found" and changes nothing. -/
theorem cancel_reject_on_error_witness :
    initMatcher.order_book.remove "A" "u1" = .error .not_found ∧
    cancelHandler true initMatcher "A" "u1" =
      (initMatcher, [], some ⟨"u1", "A", "not found"⟩) :=
  ⟨rfl, cancel_reject_on_error initMatcher "A" "u1" .not_found rfl⟩

/-- C10: during journal replay the handlers are obtained without a reply
emitter (src/index.js line 131), so a cancel record whose remove fails has
no observable effect at all: no reply, no feed envelope, no state change. -/
theorem replay_cancel_error_silent (st : Matcher) (oid sid : String) (e : RemoveError)
    (h : st.order_book.remove oid sid = .error e) :
    cancelHandler false st oid sid = (st, [], none) := by
  simp [cancelHandler, h]

/-- Witness for `replay_cancel_error_silent`: replaying a cancel of an
unknown id on a fresh matcher is silently discarded. -/
theorem replay_cancel_error_silent_witness :
    initMatcher.order_book.remove "B" "u2" = .error .not_found ∧
    cancelHandler false initMatcher "B" "u2" = (initMatcher, [], none) :=
  ⟨rfl, replay_cancel_error_silent initMatcher "B" "u2" .not_found rfl⟩

/-- C9 (the code as written): when any of the three recovery reads fails,
the error *is* surfaced to the caller's callback, but the error branches do
not return, so the chain continues into a statement that dereferences an
undefined value and throws (`crashed = true`): further recovery code does
run after the error is reported, contrary to the claim. -/
theorem recover_error_branches (st : Matcher) (e : String)
    (rf : Nat → Except String Snapshot) (jr : Except String (List JRecord))
    (nums : List Nat) (n : Nat) (snap : Snapshot)
    (hn : pickLatest nums = some n) :
    recover st (.error e) rf jr = ⟨[some e], true, [], st, false⟩ ∧
    recover st (.ok nums) (fun _ => .error e) jr = ⟨[some e], true, [], st, false⟩ ∧
    recover st (.ok nums) (fun _ => .ok snap) (.error e) =
      ⟨[some e], true, (loadSnapshot st snap).2, (loadSnapshot st snap).1, false⟩ := by
  refine ⟨rfl, ?_, ?_⟩ <;> simp [recover, hn]

/-- Witness for `recover_error_branches` at a concrete failing input: a
directory whose only state file is number 0. -/
theorem recover_error_branches_witness :
    pickLatest [0] = some 0 ∧
    recover initMatcher (.error "EACCES") (fun _ => .error "x") (.error "y") =
      ⟨[some "EACCES"], true, [], initMatcher, false⟩ :=
  ⟨rfl, (recover_error_branches initMatcher "EACCES" (fun _ => .error "x")
    (.error "y") [0] 0 ⟨[], [], 1, 0⟩ rfl).1⟩

/-! ## Lemmas about the matching loop -/

/-- The residual taker keeps its identity, price and side; its `done` flag
stays clear while it still has size. -/
theorem matchLoop_taker (taker : Order) (opp : List Order) :
    (matchLoop taker opp).1.id = taker.id ∧
    (matchLoop taker opp).1.sender = taker.sender ∧
    (matchLoop taker opp).1.price = taker.price ∧
    (matchLoop taker opp).1.side = taker.side ∧
    (taker.done = false → 0 < (matchLoop taker opp).1.size →
      (matchLoop taker opp).1.done = false) := by
  induction opp generalizing taker with
  | nil => exact ⟨rfl, rfl, rfl, rfl, fun h _ => h⟩
  | cons p rest ih =>
    simp only [matchLoop]
    split
    · split
      · split
        · rename_i ht0
          refine ⟨rfl, rfl, rfl, rfl, fun _ h => ?_⟩
          simp only at h
          omega
        · rename_i ht0
          refine ⟨(ih _).1, (ih _).2.1, (ih _).2.2.1, (ih _).2.2.2.1, fun hd hpos => ?_⟩
          refine (ih _).2.2.2.2 ?_ hpos
          simp only [hd]
      · split
        · rename_i ht0
          refine ⟨rfl, rfl, rfl, rfl, fun _ h => ?_⟩
          simp only at h
          omega
        · rename_i hp0 ht0
          refine ⟨rfl, rfl, rfl, rfl, fun hd _ => ?_⟩
          simp only [hd]
    · exact ⟨rfl, rfl, rfl, rfl, fun h _ => h⟩

/-- A `remove_order` emitted by the matching loop is always for a fully
consumed (`size = 0`) order whose `done` flag was just set. -/
theorem matchLoop_remove_done (taker : Order) (opp : List Order) :
    ∀ o, BookEvent.remove_order o ∈ (matchLoop taker opp).2.2 →
      o.done = true ∧ o.size = 0 := by
  induction opp generalizing taker with
  | nil => simp [matchLoop]
  | cons p rest ih =>
    simp only [matchLoop]
    split
    · split
      · split
        · rename_i hp0 ht0
          intro o ho
          simp only [List.mem_cons, List.mem_singleton, List.not_mem_nil] at ho
          rcases ho with h | h | h | h
          · exact absurd h (by simp)
          · cases h
            constructor
            · simp [hp0]
            · simpa using hp0
          · cases h
            constructor
            · simp [ht0]
            · simpa using ht0
          · exact absurd h (by simp at h)
        · rename_i hp0 ht0
          intro o ho
          simp only [List.mem_cons] at ho
          rcases ho with h | h | h
          · exact absurd h (by simp)
          · cases h
            constructor
            · simp [hp0]
            · simpa using hp0
          · exact ih _ o h
      · split
        · rename_i hp0 ht0
          intro o ho
          simp only [List.mem_cons, List.mem_singleton, List.not_mem_nil] at ho
          rcases ho with h | h | h
          · exact absurd h (by simp)
          · cases h
            constructor
            · simp [ht0]
            · simpa using ht0
          · exact absurd h (by simp at h)
        · intro o ho
          simp only [List.mem_singleton] at ho
          exact absurd ho (by simp at ho)
    · simp

/-- If the best opposite order does not cross (or the taker is spent), the
matching loop does nothing. -/
theorem matchLoop_not_crossing (taker p : Order) (rest : List Order)
    (h : ¬(0 < taker.size ∧ crosses taker p = true)) :
    matchLoop taker (p :: rest) = (taker, p :: rest, []) := by
  simp only [matchLoop, if_neg h]

/-- When the loop stops with residual size, the head of the remaining
opposite side no longer crosses the residual taker. -/
theorem matchLoop_stops (taker : Order) (opp : List Order) :
    ∀ h t, (matchLoop taker opp).2.1 = h :: t → 0 < (matchLoop taker opp).1.size →
      crosses (matchLoop taker opp).1 h = false := by
  induction opp generalizing taker with
  | nil => simp [matchLoop]
  | cons p rest ih =>
    simp only [matchLoop]
    split
    · split
      · split
        · rename_i ht0
          intro h t _ hpos
          simp only at hpos
          omega
        · exact fun h t he hpos => ih _ h t he hpos
      · split
        · rename_i ht0
          intro h t _ hpos
          simp only at hpos
          omega
        · rename_i hcross hp0 ht0
          intro h t _ hpos
          exfalso
          omega
    · rename_i hc
      intro h t he hpos
      cases he
      rcases Decidable.not_and_iff_or_not.mp hc with h1 | h1
      · exact absurd hpos h1
      · simpa using h1

/-- Every order left on the opposite side after matching descends from a
resting order there: same price, side, `done` flag and id; its size is
either untouched or still positive (a partially filled head). -/
theorem matchLoop_opp_elems (taker : Order) (opp : List Order) :
    ∀ x ∈ (matchLoop taker opp).2.1, ∃ y ∈ opp, x.price = y.price ∧
      x.side = y.side ∧ x.done = y.done ∧ x.id = y.id ∧
      (x.size = y.size ∨ 0 < x.size) := by
  induction opp generalizing taker with
  | nil => simp [matchLoop]
  | cons p rest ih =>
    simp only [matchLoop]
    split
    · split
      · split
        · intro x hx
          exact ⟨x, List.mem_cons_of_mem p hx, rfl, rfl, rfl, rfl, Or.inl rfl⟩
        · intro x hx
          obtain ⟨y, hy, hprops⟩ := ih _ x hx
          exact ⟨y, List.mem_cons_of_mem p hy, hprops⟩
      · rename_i hp0
        split <;>
        · intro x hx
          rcases List.mem_cons.mp hx with h | h
          · subst h
            refine ⟨p, List.mem_cons_self p rest, rfl, rfl, ?_, rfl, Or.inr ?_⟩
            · simp [hp0]
            · have h2 : ¬(p.size - taker.size ⊓ p.size = 0) := by simpa using hp0
              show 0 < p.size - taker.size ⊓ p.size
              omega
          · exact ⟨x, List.mem_cons_of_mem p h, rfl, rfl, rfl, rfl, Or.inl rfl⟩
    · intro x hx
      exact ⟨x, hx, rfl, rfl, rfl, rfl, Or.inl rfl⟩

/-- Matching preserves any price-based pairwise ordering of the opposite
side. -/
theorem matchLoop_pairwise (g : Nat → Nat → Prop) (taker : Order) (opp : List Order)
    (h : opp.Pairwise (fun x y => g x.price y.price)) :
    (matchLoop taker opp).2.1.Pairwise (fun x y => g x.price y.price) := by
  induction opp generalizing taker with
  | nil => exact h
  | cons p rest ih =>
    simp only [matchLoop]
    split
    · split
      · split
        · exact h.of_cons
        · exact ih _ h.of_cons
      · split <;>
        · refine List.Pairwise.cons ?_ h.of_cons
          intro y hy
          exact List.rel_of_pairwise_cons h hy
    · exact h

/-- Every order id referenced by an event of the matching loop is the
taker's id or the id of a resting opposite order. -/
theorem matchLoop_event_ids (taker : Order) (opp : List Order) :
    ∀ e ∈ (matchLoop taker opp).2.2, ∀ i ∈ e.ids,
      i = taker.id ∨ i ∈ opp.map Order.id := by
  induction opp generalizing taker with
  | nil => simp [matchLoop]
  | cons p rest ih =>
    simp only [matchLoop]
    split
    · split
      · split
        · intro e he i hi
          simp only [List.mem_cons, List.not_mem_nil, or_false] at he
          rcases he with h | h | h
          · subst h
            simp only [BookEvent.ids, List.mem_cons, List.not_mem_nil, or_false] at hi
            rcases hi with h | h
            · exact Or.inl h
            · exact Or.inr (by simp [h])
          · subst h
            simp only [BookEvent.ids, List.mem_cons, List.not_mem_nil, or_false] at hi
            exact Or.inr (by simp [hi])
          · subst h
            simp only [BookEvent.ids, List.mem_cons, List.not_mem_nil, or_false] at hi
            exact Or.inl hi
        · intro e he i hi
          simp only [List.mem_cons] at he
          rcases he with h | h | h
          · subst h
            simp only [BookEvent.ids, List.mem_cons, List.not_mem_nil, or_false] at hi
            rcases hi with h | h
            · exact Or.inl h
            · exact Or.inr (by simp [h])
          · subst h
            simp only [BookEvent.ids, List.mem_cons, List.not_mem_nil, or_false] at hi
            exact Or.inr (by simp [hi])
          · rcases ih _ e h i hi with h' | h'
            · exact Or.inl h'
            · exact Or.inr (List.mem_cons_of_mem _ h')
      · split
        · intro e he i hi
          simp only [List.mem_cons, List.not_mem_nil, or_false] at he
          rcases he with h | h
          · subst h
            simp only [BookEvent.ids, List.mem_cons, List.not_mem_nil, or_false] at hi
            rcases hi with h | h
            · exact Or.inl h
            · exact Or.inr (by simp [h])
          · subst h
            simp only [BookEvent.ids, List.mem_cons, List.not_mem_nil, or_false] at hi
            exact Or.inl hi
        · intro e he i hi
          simp only [List.mem_cons, List.not_mem_nil, or_false] at he
          subst he
          simp only [BookEvent.ids, List.mem_cons, List.not_mem_nil, or_false] at hi
          rcases hi with h | h
          · exact Or.inl h
          · exact Or.inr (by simp [h])
    · intro e he
      exact absurd he (List.not_mem_nil e)

/-! ## Lemmas about insertion and removal -/

/-- Membership after a bid insertion. -/
theorem insertBid_mem (o : Order) (l : List Order) :
    ∀ x ∈ insertBid o l, x = o ∨ x ∈ l := by
  induction l with
  | nil => simp [insertBid]
  | cons y ys ih =>
    simp only [insertBid]
    split
    · intro x hx
      simpa using hx
    · intro x hx
      rcases List.mem_cons.mp hx with h | h
      · exact Or.inr (by simp [h])
      · rcases ih x h with h' | h'
        · exact Or.inl h'
        · exact Or.inr (List.mem_cons_of_mem _ h')

/-- Membership after an ask insertion. -/
theorem insertAsk_mem (o : Order) (l : List Order) :
    ∀ x ∈ insertAsk o l, x = o ∨ x ∈ l := by
  induction l with
  | nil => simp [insertAsk]
  | cons y ys ih =>
    simp only [insertAsk]
    split
    · intro x hx
      simpa using hx
    · intro x hx
      rcases List.mem_cons.mp hx with h | h
      · exact Or.inr (by simp [h])
      · rcases ih x h with h' | h'
        · exact Or.inl h'
        · exact Or.inr (List.mem_cons_of_mem _ h')

/-- Inserting a bid below (or at) every resting bid price appends it at the
tail: price-time priority puts it behind everything already resting. -/
theorem insertBid_append (o : Order) (l : List Order)
    (h : ∀ x ∈ l, o.price ≤ x.price) : insertBid o l = l ++ [o] := by
  induction l with
  | nil => rfl
  | cons y ys ih =>
    have hy := h y (List.mem_cons_self y ys)
    simp only [insertBid, if_neg (by omega : ¬ y.price < o.price)]
    rw [ih fun x hx => h x (List.mem_cons_of_mem y hx)]
    rfl

/-- Inserting an ask above (or at) every resting ask price appends it at
the tail. -/
theorem insertAsk_append (o : Order) (l : List Order)
    (h : ∀ x ∈ l, x.price ≤ o.price) : insertAsk o l = l ++ [o] := by
  induction l with
  | nil => rfl
  | cons y ys ih =>
    have hy := h y (List.mem_cons_self y ys)
    simp only [insertAsk, if_neg (by omega : ¬ o.price < y.price)]
    rw [ih fun x hx => h x (List.mem_cons_of_mem y hx)]
    rfl

/-- Bid insertion keeps the bid side sorted by descending price. -/
theorem insertBid_pairwise (o : Order) (l : List Order)
    (h : l.Pairwise (fun x y : Order => y.price ≤ x.price)) :
    (insertBid o l).Pairwise (fun x y : Order => y.price ≤ x.price) := by
  induction l with
  | nil => simp [insertBid]
  | cons y ys ih =>
    simp only [insertBid]
    split
    · rename_i hlt
      refine List.Pairwise.cons ?_ h
      intro z hz
      rcases List.mem_cons.mp hz with h' | h'
      · subst h'
        omega
      · have := List.rel_of_pairwise_cons h h'
        omega
    · rename_i hge
      refine List.Pairwise.cons ?_ (ih h.of_cons)
      intro z hz
      rcases insertBid_mem o ys z hz with h' | h'
      · subst h'
        omega
      · exact List.rel_of_pairwise_cons h h'

/-- Ask insertion keeps the ask side sorted by ascending price. -/
theorem insertAsk_pairwise (o : Order) (l : List Order)
    (h : l.Pairwise (fun x y : Order => x.price ≤ y.price)) :
    (insertAsk o l).Pairwise (fun x y : Order => x.price ≤ y.price) := by
  induction l with
  | nil => simp [insertAsk]
  | cons y ys ih =>
    simp only [insertAsk]
    split
    · rename_i hlt
      refine List.Pairwise.cons ?_ h
      intro z hz
      rcases List.mem_cons.mp hz with h' | h'
      · subst h'
        omega
      · have := List.rel_of_pairwise_cons h h'
        omega
    · rename_i hge
      refine List.Pairwise.cons ?_ (ih h.of_cons)
      intro z hz
      rcases insertAsk_mem o ys z hz with h' | h'
      · subst h'
        omega
      · exact List.rel_of_pairwise_cons h h'

/-- A successful `removeFrom` removes exactly one resting order: the result
is a sublist and the removed order was present. -/
theorem removeFrom_ok (oid sender : String) (l : List Order) (o : Order)
    (l' : List Order) (h : removeFrom oid sender l = .ok (o, l')) :
    List.Sublist l' l ∧ o ∈ l := by
  induction l generalizing l' with
  | nil => simp [removeFrom] at h
  | cons y ys ih =>
    simp only [removeFrom] at h
    split at h
    · split at h
      · injection h with h'
        injection h' with h1 h2
        subst h1
        subst h2
        exact ⟨List.sublist_cons_self y ys, List.mem_cons_self y ys⟩
      · cases h
    · rename_i hne
      revert h
      split
      · rename_i f rest' hr
        intro h
        injection h with h'
        injection h' with h1 h2
        subst h1
        subst h2
        obtain ⟨hsub, hmem⟩ := ih rest' hr
        exact ⟨List.Sublist.cons₂ y hsub, List.mem_cons_of_mem y hmem⟩
      · intro h
        cases h

/-- Liveness/side facts survive the matching loop on the opposite side. -/
theorem matchLoop_opp_wf (taker : Order) (opp : List Order) (s : Side)
    (h : ∀ y ∈ opp, y.side = s ∧ 0 < y.size ∧ y.done = false) :
    ∀ x ∈ (matchLoop taker opp).2.1, x.side = s ∧ 0 < x.size ∧ x.done = false := by
  intro x hx
  obtain ⟨y, hy, _, hs, hd, _, hsz⟩ := matchLoop_opp_elems taker opp x hx
  obtain ⟨hys, hysz, hyd⟩ := h y hy
  refine ⟨hs.trans hys, ?_, hd.trans hyd⟩
  rcases hsz with h' | h'
  · omega
  · exact h'

/-- A buy that stops crossing is strictly below the price. -/
theorem not_crosses_buy (t h : Order) (hside : t.side = .buy)
    (hc : crosses t h = false) : t.price < h.price := by
  simp [crosses, hside] at hc
  omega

/-- A sell that stops crossing is strictly above the price. -/
theorem not_crosses_sell (t h : Order) (hside : t.side = .sell)
    (hc : crosses t h = false) : h.price < t.price := by
  simp [crosses, hside] at hc
  omega

/-- `OrderBook.add` preserves the book invariants for any incoming order
with a clear `done` flag: sides stay sorted, resting orders stay live and
correctly sided, and the book stays uncrossed. -/
theorem add_BookWF (b : OrderBook) (o : Order) (hwf : BookWF b)
    (hdone : o.done = false) : BookWF (b.add o).1 := by
  obtain ⟨hbp, hap, hbs, has, hun⟩ := hwf
  obtain ⟨hid, hsend, hprice, hside, hdn⟩ := matchLoop_taker o b.asks
  obtain ⟨hid', hsend', hprice', hside', hdn'⟩ := matchLoop_taker o b.bids
  cases hs : o.side with
  | buy =>
    simp only [OrderBook.add, hs]
    split
    · rename_i hpos
      refine ⟨insertBid_pairwise _ _ hbp, matchLoop_pairwise (fun a c => a ≤ c) o b.asks hap, ?_, ?_, ?_⟩
      · intro x hx
        rcases insertBid_mem _ _ x hx with h' | h'
        · subst h'
          exact ⟨hside.trans hs, hpos, hdn hdone hpos⟩
        · exact hbs x h'
      · exact matchLoop_opp_wf o b.asks Side.sell has
      · intro x hx y hy
        obtain ⟨y', hy', hyp, _, _, _, _⟩ := matchLoop_opp_elems o b.asks y hy
        rcases insertBid_mem _ _ x hx with h' | h'
        · subst h'
          cases hrem : (matchLoop o b.asks).2.1 with
          | nil => rw [hrem] at hy; exact absurd hy (List.not_mem_nil y)
          | cons hd tl =>
            have hstop := matchLoop_stops o b.asks hd tl hrem hpos
            have hlt := not_crosses_buy _ hd (hside.trans hs) hstop
            rw [hrem] at hy
            rcases List.mem_cons.mp hy with h'' | h''
            · subst h''
              omega
            · have hordered := matchLoop_pairwise (fun a c => a ≤ c) o b.asks hap
              rw [hrem] at hordered
              have := List.rel_of_pairwise_cons hordered h''
              omega
        · have := hun x h' y' hy'
          omega
    · refine ⟨hbp, matchLoop_pairwise (fun a c => a ≤ c) o b.asks hap, hbs,
        matchLoop_opp_wf o b.asks Side.sell has, ?_⟩
      intro x hx y hy
      obtain ⟨y', hy', hyp, _, _, _, _⟩ := matchLoop_opp_elems o b.asks y hy
      have := hun x hx y' hy'
      omega
  | sell =>
    simp only [OrderBook.add, hs]
    split
    · rename_i hpos
      refine ⟨matchLoop_pairwise (fun a c => c ≤ a) o b.bids hbp, insertAsk_pairwise _ _ hap, ?_, ?_, ?_⟩
      · exact matchLoop_opp_wf o b.bids Side.buy hbs
      · intro x hx
        rcases insertAsk_mem _ _ x hx with h' | h'
        · subst h'
          exact ⟨hside'.trans hs, hpos, hdn' hdone hpos⟩
        · exact has x h'
      · intro x hx y hy
        obtain ⟨x', hx', hxp, _, _, _, _⟩ := matchLoop_opp_elems o b.bids x hx
        rcases insertAsk_mem _ _ y hy with h' | h'
        · subst h'
          cases hrem : (matchLoop o b.bids).2.1 with
          | nil => rw [hrem] at hx; exact absurd hx (List.not_mem_nil x)
          | cons hd tl =>
            have hstop := matchLoop_stops o b.bids hd tl hrem hpos
            have hlt := not_crosses_sell _ hd (hside'.trans hs) hstop
            rw [hrem] at hx
            rcases List.mem_cons.mp hx with h'' | h''
            · subst h''
              omega
            · have hordered := matchLoop_pairwise (fun a c => c ≤ a) o b.bids hbp
              rw [hrem] at hordered
              have := List.rel_of_pairwise_cons hordered h''
              omega
        · have := hun x' hx' y h'
          omega
    · refine ⟨matchLoop_pairwise (fun a c => c ≤ a) o b.bids hbp, hap,
        matchLoop_opp_wf o b.bids Side.buy hbs, has, ?_⟩
      intro x hx y hy
      obtain ⟨x', hx', hxp, _, _, _, _⟩ := matchLoop_opp_elems o b.bids x hx
      have := hun x' hx' y hy
      omega

/-- A successful cancel removes one resting order from exactly one side. -/
theorem OrderBook.remove_ok_cases (b : OrderBook) (oid sender : String)
    (b' : OrderBook) (o : Order) (h : b.remove oid sender = .ok (b', o)) :
    (List.Sublist b'.bids b.bids ∧ b'.asks = b.asks ∧ o ∈ b.bids) ∨
    (b'.bids = b.bids ∧ List.Sublist b'.asks b.asks ∧ o ∈ b.asks) := by
  unfold OrderBook.remove at h
  revert h
  split
  · rename_i o1 bids' hb
    intro h
    injection h with h'
    injection h' with h1 h2
    subst h2
    obtain ⟨hsub, hmem⟩ := removeFrom_ok oid sender b.bids o1 bids' hb
    rw [← h1]
    exact Or.inl ⟨hsub, rfl, hmem⟩
  · intro h
    cases h
  · split
    · rename_i o1 asks' ha
      intro h
      injection h with h'
      injection h' with h1 h2
      subst h2
      obtain ⟨hsub, hmem⟩ := removeFrom_ok oid sender b.asks o1 asks' ha
      rw [← h1]
      exact Or.inr ⟨rfl, hsub, hmem⟩
    · intro h
      cases h

/-- Cancellation preserves the book invariants. -/
theorem remove_BookWF (b : OrderBook) (oid sender : String) (b' : OrderBook)
    (o : Order) (hwf : BookWF b) (h : b.remove oid sender = .ok (b', o)) :
    BookWF b' := by
  obtain ⟨hbp, hap, hbs, has, hun⟩ := hwf
  rcases OrderBook.remove_ok_cases b oid sender b' o h with ⟨hsub, hasks, _⟩ | ⟨hbids, hsub, _⟩
  · exact ⟨hbp.sublist hsub, hasks ▸ hap,
      fun x hx => hbs x (hsub.subset hx),
      fun x hx => has x (by rw [hasks] at hx; exact hx),
      fun x hx y hy => hun x (hsub.subset hx) y (by rw [hasks] at hy; exact hy)⟩
  · exact ⟨hbids ▸ hbp, hap.sublist hsub,
      fun x hx => hbs x (by rw [hbids] at hx; exact hx),
      fun x hx => has x (hsub.subset hx),
      fun x hx y hy => hun x (by rw [hbids] at hx; exact hx) y (hsub.subset hy)⟩

/-- Under the book invariants, an order removed by a cancel was resting live
(`done = false`, positive size). -/
theorem remove_order_live (b : OrderBook) (oid sender : String) (b' : OrderBook)
    (o : Order) (hwf : BookWF b) (h : b.remove oid sender = .ok (b', o)) :
    o.done = false ∧ 0 < o.size := by
  obtain ⟨_, _, hbs, has, _⟩ := hwf
  rcases OrderBook.remove_ok_cases b oid sender b' o h with ⟨_, _, hmem⟩ | ⟨_, _, hmem⟩
  · exact ⟨(hbs o hmem).2.2, (hbs o hmem).2.1⟩
  · exact ⟨(has o hmem).2.2, (has o hmem).2.1⟩

/-! ## C8: the `done` reason mapping -/

/-- C8: the `remove_order` feed listener stamps `reason` from the order's
`done` flag.  An order removed by a successful cancel rests with
`done = false`, so its (sole) feed envelope is an `order_status done` with
reason `cancelled` carrying its remaining size and price; every
`remove_order` arising from matching is for a fully filled order
(`done = true`, residual 0), so its envelope carries reason `filled`. -/
theorem done_reason_filled_or_cancelled :
    (∀ (st : Matcher) (oid sid : String) (b' : OrderBook) (ord : Order),
      BookWF st.order_book → st.order_book.remove oid sid = .ok (b', ord) →
      (cancelHandler true st oid sid).2.1 =
        [⟨"order_status", st.output_seq,
          .status_done ord.id ord.size ord.price ord.side ord.sender "cancelled"⟩]) ∧
    (∀ (taker : Order) (opp : List Order) (o : Order),
      BookEvent.remove_order o ∈ (matchLoop taker opp).2.2 →
      ∀ q, feedEnvelope q (.remove_order o) =
        ⟨"order_status", q, .status_done o.id 0 o.price o.side o.sender "filled"⟩) := by
  constructor
  · intro st oid sid b' ord hwf h
    have hlive := remove_order_live st.order_book oid sid b' ord hwf h
    simp [cancelHandler, h, publishEvents, feedEnvelope, hlive.1]
  · intro taker opp o hmem q
    obtain ⟨hd, hz⟩ := matchLoop_remove_done taker opp o hmem
    simp [feedEnvelope, hd, hz]

/-- Witness for `done_reason_filled_or_cancelled`, the literal scenario S3:
after S1 and S2 the resting order A (residual 6 at 100) is cancelled and the
feed carries `done - cancelled - size 6 - price 100`. -/
theorem done_reason_witness :
    BookWF (engineRun [ .order "A" "u1" .buy 100 10,
      .order "B" "u2" .sell 100 4 ]).st.order_book ∧
    (cancelHandler true (engineRun [ .order "A" "u1" .buy 100 10,
        .order "B" "u2" .sell 100 4 ]).st "A" "u1").2.1 =
      [⟨"order_status", 5, .status_done "A" 6 100 .buy "u1" "cancelled"⟩] := by
  refine ⟨⟨by decide, by decide, by decide, by decide, by decide⟩, ?_⟩
  exact done_reason_filled_or_cancelled.1 _ "A" "u1" ⟨[], []⟩
    ⟨"A", "u1", .buy, 100, 6, false⟩ ⟨by decide, by decide, by decide, by decide, by decide⟩ rfl

/-! ## Snapshot loading -/

/-- Loading one live buy order into a book with no asks appends it to the
bid tail (no match possible) and publishes exactly its `open` status. -/
theorem loadStep_bid (sn q : Nat) (ms : List FeedMsg) (acc : List Order) (o : Order)
    (ho : o.side = Side.buy) (hsz : 0 < o.size)
    (hle : ∀ x ∈ acc, o.price ≤ x.price) :
    loadStep (⟨⟨acc, []⟩, sn, q⟩, ms) o =
      (⟨⟨acc ++ [o], []⟩, sn, q + 1⟩, ms ++ [feedEnvelope q (.add_order o)]) := by
  simp only [loadStep, OrderBook.add, ho, matchLoop, publishEvents]
  simp [hsz, insertBid_append o acc hle, publishEvents]

/-- Loading one live sell order into a book whose bids are all strictly
below its price leaves the bids alone, appends it to the ask tail and
publishes exactly its `open` status. -/
theorem loadStep_ask (sn q : Nat) (ms : List FeedMsg) (bids acc : List Order) (o : Order)
    (ho : o.side = Side.sell) (hsz : 0 < o.size)
    (hun : ∀ x ∈ bids, x.price < o.price)
    (hle : ∀ x ∈ acc, x.price ≤ o.price) :
    loadStep (⟨⟨bids, acc⟩, sn, q⟩, ms) o =
      (⟨⟨bids, acc ++ [o]⟩, sn, q + 1⟩, ms ++ [feedEnvelope q (.add_order o)]) := by
  have hml : matchLoop o bids = (o, bids, []) := by
    cases bids with
    | nil => simp [matchLoop]
    | cons b bs =>
      refine matchLoop_not_crossing o b bs ?_
      have := hun b (List.mem_cons_self b bs)
      simp [crosses, ho]
      intro
      omega
  simp only [loadStep, OrderBook.add, ho, hml, publishEvents]
  simp [hsz, insertAsk_append o acc hle, publishEvents]

/-- Folding live, descending-sorted bids into a book with no asks appends
them in order, publishing only `open` statuses. -/
theorem load_bids_go (sn : Nat) (bs : List Order) :
    ∀ (acc : List Order) (q : Nat) (ms : List FeedMsg),
    (∀ o ∈ bs, o.side = Side.buy ∧ 0 < o.size) →
    ((acc ++ bs).Pairwise (fun x y : Order => y.price ≤ x.price)) →
    ∃ q' ms', bs.foldl loadStep (⟨⟨acc, []⟩, sn, q⟩, ms) =
      (⟨⟨acc ++ bs, []⟩, sn, q'⟩, ms ++ ms') ∧
      ∀ m ∈ ms', m.isOpen = true := by
  induction bs with
  | nil =>
    intro acc q ms _ _
    exact ⟨q, [], by simp⟩
  | cons o rest ih =>
    intro acc q ms hs hpair
    have ho := hs o (List.mem_cons_self o rest)
    have hle : ∀ x ∈ acc, o.price ≤ x.price := by
      intro x hx
      have := (List.pairwise_append.mp hpair).2.2 x hx o (List.mem_cons_self o rest)
      exact this
    have hstep := loadStep_bid sn q ms acc o ho.1 ho.2 hle
    have hpair' : ((acc ++ [o]) ++ rest).Pairwise (fun x y : Order => y.price ≤ x.price) := by
      rw [List.append_assoc]
      simpa using hpair
    obtain ⟨q', ms', hfold, hopen⟩ :=
      ih (acc ++ [o]) (q + 1) (ms ++ [feedEnvelope q (.add_order o)])
        (fun x hx => hs x (List.mem_cons_of_mem o hx)) hpair'
    refine ⟨q', [feedEnvelope q (.add_order o)] ++ ms', ?_, ?_⟩
    · rw [List.foldl_cons, hstep, hfold]
      simp
    · intro m hm
      rcases List.mem_append.mp hm with h | h
      · simp only [List.mem_singleton] at h
        subst h
        simp [FeedMsg.isOpen, feedEnvelope]
      · exact hopen m h

/-- Folding live, ascending-sorted asks into an uncrossed book appends them
in order, publishing only `open` statuses. -/
theorem load_asks_go (sn : Nat) (asl : List Order) :
    ∀ (acc bids : List Order) (q : Nat) (ms : List FeedMsg),
    (∀ o ∈ asl, o.side = Side.sell ∧ 0 < o.size) →
    ((acc ++ asl).Pairwise (fun x y : Order => x.price ≤ y.price)) →
    (∀ x ∈ bids, ∀ y ∈ asl, x.price < y.price) →
    ∃ q' ms', asl.foldl loadStep (⟨⟨bids, acc⟩, sn, q⟩, ms) =
      (⟨⟨bids, acc ++ asl⟩, sn, q'⟩, ms ++ ms') ∧
      ∀ m ∈ ms', m.isOpen = true := by
  induction asl with
  | nil =>
    intro acc bids q ms _ _ _
    exact ⟨q, [], by simp⟩
  | cons o rest ih =>
    intro acc bids q ms hs hpair hun
    have ho := hs o (List.mem_cons_self o rest)
    have hle : ∀ x ∈ acc, x.price ≤ o.price := by
      intro x hx
      exact (List.pairwise_append.mp hpair).2.2 x hx o (List.mem_cons_self o rest)
    have hstep := loadStep_ask sn q ms bids acc o ho.1 ho.2
      (fun x hx => hun x hx o (List.mem_cons_self o rest)) hle
    have hpair' : ((acc ++ [o]) ++ rest).Pairwise (fun x y : Order => x.price ≤ y.price) := by
      rw [List.append_assoc]
      simpa using hpair
    obtain ⟨q', ms', hfold, hopen⟩ :=
      ih (acc ++ [o]) bids (q + 1) (ms ++ [feedEnvelope q (.add_order o)])
        (fun x hx => hs x (List.mem_cons_of_mem o hx)) hpair'
        (fun x hx y hy => hun x hx y (List.mem_cons_of_mem o hy))
    refine ⟨q', [feedEnvelope q (.add_order o)] ++ ms', ?_, ?_⟩
    · rw [List.foldl_cons, hstep, hfold]
      simp
    · intro m hm
      rcases List.mem_append.mp hm with h | h
      · simp only [List.mem_singleton] at h
        subst h
        simp [FeedMsg.isOpen, feedEnvelope]
      · exact hopen m h

/-- Loading an uncrossed, sorted, live snapshot into a fresh matcher
reproduces exactly the snapshot book, sets `state_num` and `output_seq`
from the snapshot, and publishes only `open` statuses (no match, no
removal). -/
theorem loadSnapshot_ok (sn q : Nat) (snap : Snapshot)
    (hbp : snap.bids.Pairwise (fun x y : Order => y.price ≤ x.price))
    (hap : snap.asks.Pairwise (fun x y : Order => x.price ≤ y.price))
    (hbs : ∀ o ∈ snap.bids, o.side = Side.buy ∧ 0 < o.size ∧ o.done = false)
    (has : ∀ o ∈ snap.asks, o.side = Side.sell ∧ 0 < o.size ∧ o.done = false)
    (hun : ∀ x ∈ snap.bids, ∀ y ∈ snap.asks, x.price < y.price) :
    (loadSnapshot ⟨⟨[], []⟩, sn, q⟩ snap).1 =
      ⟨⟨snap.bids, snap.asks⟩, snap.state_num, snap.output_seq⟩ ∧
    ∀ m ∈ (loadSnapshot ⟨⟨[], []⟩, sn, q⟩ snap).2, m.isOpen = true := by
  have hmb : snap.bids.map (fun od => { od with side := Side.buy }) = snap.bids := by
    have h : ∀ od ∈ snap.bids, ({ od with side := Side.buy } : Order) = od := by
      intro od hod
      have := (hbs od hod).1
      cases od
      simp_all
    calc snap.bids.map (fun od => { od with side := Side.buy })
        = snap.bids.map id := List.map_congr_left h
      _ = snap.bids := List.map_id snap.bids
  have hma : snap.asks.map (fun od => { od with side := Side.sell }) = snap.asks := by
    have h : ∀ od ∈ snap.asks, ({ od with side := Side.sell } : Order) = od := by
      intro od hod
      have := (has od hod).1
      cases od
      simp_all
    calc snap.asks.map (fun od => { od with side := Side.sell })
        = snap.asks.map id := List.map_congr_left h
      _ = snap.asks := List.map_id snap.asks
  obtain ⟨q1, ms1, hf1, ho1⟩ := load_bids_go sn snap.bids [] q []
    (fun o h => ⟨(hbs o h).1, (hbs o h).2.1⟩) (by simpa using hbp)
  obtain ⟨q2, ms2, hf2, ho2⟩ := load_asks_go sn snap.asks [] snap.bids q1 ms1
    (fun o h => ⟨(has o h).1, (has o h).2.1⟩) (by simpa using hap) hun
  simp only [List.nil_append] at hf1 hf2
  unfold loadSnapshot
  rw [hmb, hma]
  simp only [hf1, hf2]
  refine ⟨trivial, ?_⟩
  intro m hm
  rcases List.mem_append.mp hm with h | h
  · exact ho1 m h
  · exact ho2 m h

/-- C5: during recovery every stored bid and ask is inserted in stored
priority order and, because the snapshot book satisfies the book invariants
(in particular it is uncrossed), no matching occurs: the resulting book
equals the snapshot content, after which `state_num` and `output_seq` are
set from the snapshot; every envelope published by the load is an `open`
status — no `match` or `remove_order` event arises. -/
theorem snapshot_load_no_matching (sn q : Nat) (snap : Snapshot)
    (hwf : BookWF ⟨snap.bids, snap.asks⟩) :
    (loadSnapshot ⟨⟨[], []⟩, sn, q⟩ snap).1 =
      ⟨⟨snap.bids, snap.asks⟩, snap.state_num, snap.output_seq⟩ ∧
    ∀ m ∈ (loadSnapshot ⟨⟨[], []⟩, sn, q⟩ snap).2, m.isOpen = true := by
  obtain ⟨hbp, hap, hbs, has, hun⟩ := hwf
  exact loadSnapshot_ok sn q snap hbp hap hbs has hun

/-- Witness for `snapshot_load_no_matching`: a one-bid, one-ask uncrossed
snapshot loads back exactly, with only `open` statuses. -/
theorem snapshot_load_no_matching_witness :
    BookWF ⟨[⟨"A", "u1", .buy, 100, 6, false⟩], [⟨"B", "u2", .sell, 105, 3, false⟩]⟩ ∧
    (loadSnapshot ⟨⟨[], []⟩, 0, 0⟩
        ⟨[⟨"A", "u1", .buy, 100, 6, false⟩], [⟨"B", "u2", .sell, 105, 3, false⟩], 7, 9⟩).1 =
      ⟨⟨[⟨"A", "u1", .buy, 100, 6, false⟩], [⟨"B", "u2", .sell, 105, 3, false⟩]⟩, 7, 9⟩ ∧
    ∀ m ∈ (loadSnapshot ⟨⟨[], []⟩, 0, 0⟩
        ⟨[⟨"A", "u1", .buy, 100, 6, false⟩], [⟨"B", "u2", .sell, 105, 3, false⟩], 7, 9⟩).2,
      m.isOpen = true := by
  refine ⟨⟨by decide, by decide, by decide, by decide, by decide⟩, ?_, ?_⟩
  · exact (snapshot_load_no_matching 0 0 _
      ⟨by decide, by decide, by decide, by decide, by decide⟩).1
  · exact (snapshot_load_no_matching 0 0 _
      ⟨by decide, by decide, by decide, by decide, by decide⟩).2

/-! ## Feed mentions and the first event for an order id (C6) -/

/-- A feed envelope built from a book event mentions only ids the event
refers to. -/
theorem feedEnvelope_mentions (q : Nat) (e : BookEvent) (x : String)
    (h : (feedEnvelope q e).mentions x = true) : x ∈ e.ids := by
  cases e with
  | add_order o =>
    simp only [feedEnvelope, FeedMsg.mentions, beq_iff_eq] at h
    simp [BookEvent.ids, h]
  | matchEv s t p =>
    simp only [feedEnvelope, FeedMsg.mentions, Bool.or_eq_true, beq_iff_eq] at h
    rcases h with h | h <;> simp [BookEvent.ids, h]
  | remove_order o =>
    simp only [feedEnvelope, FeedMsg.mentions, beq_iff_eq] at h
    simp [BookEvent.ids, h]

/-- Every published envelope comes from one of the events. -/
theorem publishEvents_mem (evs : List BookEvent) :
    ∀ (q : Nat), ∀ m ∈ (publishEvents q evs).2, ∃ e ∈ evs, ∃ q', m = feedEnvelope q' e := by
  induction evs with
  | nil => simp [publishEvents]
  | cons e rest ih =>
    intro q m hm
    simp only [publishEvents, List.mem_cons] at hm
    rcases hm with h | h
    · exact ⟨e, List.mem_cons_self e rest, q, h⟩
    · obtain ⟨e', he', q', hq'⟩ := ih (q + 1) m h
      exact ⟨e', List.mem_cons_of_mem e he', q', hq'⟩

/-- Ids mentioned by the events of an `add` are the incoming order's id or
ids already resting in the book. -/
theorem add_event_ids (b : OrderBook) (o : Order) :
    ∀ e ∈ (b.add o).2, ∀ i ∈ e.ids, i = o.id ∨ i ∈ b.ids := by
  have hasks : ∀ i, i ∈ b.asks.map Order.id → i ∈ b.ids := by
    intro i hi
    simp only [OrderBook.ids, List.map_append, List.mem_append]
    exact Or.inr hi
  have hbids : ∀ i, i ∈ b.bids.map Order.id → i ∈ b.ids := by
    intro i hi
    simp only [OrderBook.ids, List.map_append, List.mem_append]
    exact Or.inl hi
  obtain ⟨hid, _, _, _, _⟩ := matchLoop_taker o b.asks
  obtain ⟨hid', _, _, _, _⟩ := matchLoop_taker o b.bids
  cases hs : o.side with
  | buy =>
    simp only [OrderBook.add, hs]
    split
    · intro e he i hi
      rcases List.mem_append.mp he with h | h
      · rcases matchLoop_event_ids o b.asks e h i hi with h' | h'
        · exact Or.inl h'
        · exact Or.inr (hasks i h')
      · simp only [List.mem_singleton] at h
        subst h
        simp only [BookEvent.ids, List.mem_singleton] at hi
        exact Or.inl (hi.trans hid)
    · intro e he i hi
      rcases matchLoop_event_ids o b.asks e he i hi with h' | h'
      · exact Or.inl h'
      · exact Or.inr (hasks i h')
  | sell =>
    simp only [OrderBook.add, hs]
    split
    · intro e he i hi
      rcases List.mem_append.mp he with h | h
      · rcases matchLoop_event_ids o b.bids e h i hi with h' | h'
        · exact Or.inl h'
        · exact Or.inr (hbids i h')
      · simp only [List.mem_singleton] at h
        subst h
        simp only [BookEvent.ids, List.mem_singleton] at hi
        exact Or.inl (hi.trans hid')
    · intro e he i hi
      rcases matchLoop_event_ids o b.bids e he i hi with h' | h'
      · exact Or.inl h'
      · exact Or.inr (hbids i h')

/-- Ids resting after an `add` are the incoming order's id or ids already
resting before. -/
theorem add_book_ids (b : OrderBook) (o : Order) :
    ∀ i ∈ (b.add o).1.ids, i = o.id ∨ i ∈ b.ids := by
  obtain ⟨hid, _, _, _, _⟩ := matchLoop_taker o b.asks
  obtain ⟨hid', _, _, _, _⟩ := matchLoop_taker o b.bids
  have hml : ∀ (opp : List Order) (t : Order), ∀ i,
      i ∈ ((matchLoop t opp).2.1.map Order.id) → i ∈ opp.map Order.id := by
    intro opp t i hi
    obtain ⟨y, hy, hmy⟩ := List.mem_map.mp hi
    obtain ⟨y', hy', _, _, _, hyid, _⟩ := matchLoop_opp_elems t opp y hy
    exact List.mem_map.mpr ⟨y', hy', by rw [← hmy, hyid]⟩
  cases hs : o.side with
  | buy =>
    simp only [OrderBook.add, hs]
    split
    · intro i hi
      simp only [OrderBook.ids, List.map_append, List.mem_append] at hi
      rcases hi with h | h
      · obtain ⟨y, hy, hmy⟩ := List.mem_map.mp h
        rcases insertBid_mem _ _ y hy with h' | h'
        · subst h'
          exact Or.inl (by rw [← hmy, hid])
        · refine Or.inr ?_
          simp only [OrderBook.ids, List.map_append, List.mem_append]
          exact Or.inl (List.mem_map.mpr ⟨y, h', hmy⟩)
      · refine Or.inr ?_
        simp only [OrderBook.ids, List.map_append, List.mem_append]
        exact Or.inr (hml b.asks o i h)
    · intro i hi
      simp only [OrderBook.ids, List.map_append, List.mem_append] at hi
      rcases hi with h | h
      · refine Or.inr ?_
        simp only [OrderBook.ids, List.map_append, List.mem_append]
        exact Or.inl h
      · refine Or.inr ?_
        simp only [OrderBook.ids, List.map_append, List.mem_append]
        exact Or.inr (hml b.asks o i h)
  | sell =>
    simp only [OrderBook.add, hs]
    split
    · intro i hi
      simp only [OrderBook.ids, List.map_append, List.mem_append] at hi
      rcases hi with h | h
      · refine Or.inr ?_
        simp only [OrderBook.ids, List.map_append, List.mem_append]
        exact Or.inl (hml b.bids o i h)
      · obtain ⟨y, hy, hmy⟩ := List.mem_map.mp h
        rcases insertAsk_mem _ _ y hy with h' | h'
        · subst h'
          exact Or.inl (by rw [← hmy, hid'])
        · refine Or.inr ?_
          simp only [OrderBook.ids, List.map_append, List.mem_append]
          exact Or.inr (List.mem_map.mpr ⟨y, h', hmy⟩)
    · intro i hi
      simp only [OrderBook.ids, List.map_append, List.mem_append] at hi
      rcases hi with h | h
      · refine Or.inr ?_
        simp only [OrderBook.ids, List.map_append, List.mem_append]
        exact Or.inl (hml b.bids o i h)
      · refine Or.inr ?_
        simp only [OrderBook.ids, List.map_append, List.mem_append]
        exact Or.inr h

/-- An `order` handled for a different id, over a book not containing `x`,
publishes nothing mentioning `x` and keeps `x` out of the book. -/
theorem applyOrder_not_mentions (st : Matcher) (o : Order) (x : String)
    (hx : x ∉ st.order_book.ids) (ho : o.id ≠ x) :
    (∀ m ∈ (applyOrder st o).2, m.mentions x = false) ∧
    x ∉ (applyOrder st o).1.order_book.ids := by
  constructor
  · intro m hm
    simp only [applyOrder, List.mem_cons] at hm
    rcases hm with h | h
    · subst h
      simpa [FeedMsg.mentions] using ho
    · by_contra hb
      have hb' : m.mentions x = true := by
        cases hmx : m.mentions x
        · exact absurd hmx hb
        · rfl
      obtain ⟨e, he, q', hq'⟩ := publishEvents_mem _ _ m h
      subst hq'
      have := feedEnvelope_mentions q' e x hb'
      rcases add_event_ids st.order_book o e he x this with h' | h'
      · exact ho h'.symm
      · exact hx h'
  · intro hmem
    rcases add_book_ids st.order_book o x hmem with h' | h'
    · exact ho h'.symm
    · exact hx h'

/-- A `cancel` over a book not containing `x` publishes nothing mentioning
`x` and keeps `x` out of the book. -/
theorem cancelHandler_not_mentions (hasEv : Bool) (st : Matcher) (oid sid x : String)
    (hx : x ∉ st.order_book.ids) :
    (∀ m ∈ (cancelHandler hasEv st oid sid).2.1, m.mentions x = false) ∧
    x ∉ (cancelHandler hasEv st oid sid).1.order_book.ids := by
  unfold cancelHandler
  cases hrem : st.order_book.remove oid sid with
  | error e => exact ⟨by simp, hx⟩
  | ok r =>
    obtain ⟨b', ord⟩ := r
    rcases OrderBook.remove_ok_cases st.order_book oid sid b' ord hrem with
      ⟨hsub, hasks, hmem⟩ | ⟨hbids, hsub, hmem⟩
    · constructor
      · intro m hm
        simp only [publishEvents, List.mem_cons, List.not_mem_nil, or_false] at hm
        subst hm
        by_contra hb
        rw [show (¬(feedEnvelope st.output_seq (BookEvent.remove_order ord)).mentions x
            = false) = ((feedEnvelope st.output_seq
            (BookEvent.remove_order ord)).mentions x = true) from by
          cases (feedEnvelope st.output_seq (BookEvent.remove_order ord)).mentions x <;>
            simp] at hb
        have := feedEnvelope_mentions _ (.remove_order ord) x hb
        simp only [BookEvent.ids, List.mem_singleton] at this
        subst this
        exact hx (by
          simp only [OrderBook.ids, List.map_append, List.mem_append]
          exact Or.inl (List.mem_map.mpr ⟨ord, hmem, rfl⟩))
      · intro hmem'
        refine hx ?_
        simp only [OrderBook.ids, List.map_append, List.mem_append] at hmem' ⊢
        rcases hmem' with h | h
        · exact Or.inl (by
            obtain ⟨y, hy, hmy⟩ := List.mem_map.mp h
            exact List.mem_map.mpr ⟨y, hsub.subset hy, hmy⟩)
        · exact Or.inr (by rw [hasks] at h; exact h)
    · constructor
      · intro m hm
        simp only [publishEvents, List.mem_cons, List.not_mem_nil, or_false] at hm
        subst hm
        by_contra hb
        rw [show (¬(feedEnvelope st.output_seq (BookEvent.remove_order ord)).mentions x
            = false) = ((feedEnvelope st.output_seq
            (BookEvent.remove_order ord)).mentions x = true) from by
          cases (feedEnvelope st.output_seq (BookEvent.remove_order ord)).mentions x <;>
            simp] at hb
        have := feedEnvelope_mentions _ (.remove_order ord) x hb
        simp only [BookEvent.ids, List.mem_singleton] at this
        subst this
        exact hx (by
          simp only [OrderBook.ids, List.map_append, List.mem_append]
          exact Or.inr (List.mem_map.mpr ⟨ord, hmem, rfl⟩))
      · intro hmem'
        refine hx ?_
        simp only [OrderBook.ids, List.map_append, List.mem_append] at hmem' ⊢
        rcases hmem' with h | h
        · exact Or.inl (by rw [hbids] at h; exact h)
        · exact Or.inr (by
            obtain ⟨y, hy, hmy⟩ := List.mem_map.mp h
            exact List.mem_map.mpr ⟨y, hsub.subset hy, hmy⟩)

/-- Before an order id ever appears as an `order` input, nothing on the feed
mentions it and it is not in the book. -/
theorem runFrom_not_mentions (l : List Input) :
    ∀ (st : Matcher) (x : String), x ∉ st.order_book.ids → x ∉ orderIdsOf l →
    (∀ m ∈ (runFrom st l).feed, m.mentions x = false) ∧
    x ∉ (runFrom st l).st.order_book.ids := by
  induction l with
  | nil =>
    intro st x hb _
    exact ⟨by simp [runFrom], hb⟩
  | cons i rest ih =>
    intro st x hb hi
    cases i with
    | order id sender side price size =>
      have hne : id ≠ x := by
        intro h
        subst h
        exact hi (by simp [orderIdsOf])
      have hrest : x ∉ orderIdsOf rest := by
        intro h
        exact hi (by simp [orderIdsOf, h])
      obtain ⟨hmsgs, hbook⟩ :=
        applyOrder_not_mentions st ⟨id, sender, side, price, size, false⟩ x hb hne
      obtain ⟨hmsgs', hbook'⟩ := ih _ x hbook hrest
      refine ⟨?_, hbook'⟩
      intro m hm
      simp only [runFrom, stepInput, List.mem_append] at hm
      rcases hm with h | h
      · exact hmsgs m h
      · exact hmsgs' m h
    | cancel oid sid =>
      have hrest : x ∉ orderIdsOf rest := by
        intro h
        exact hi (by simp [orderIdsOf, h])
      obtain ⟨hmsgs, hbook⟩ := cancelHandler_not_mentions true st oid sid x hb
      obtain ⟨hmsgs', hbook'⟩ := ih _ x hbook hrest
      refine ⟨?_, hbook'⟩
      intro m hm
      simp only [runFrom, stepInput, List.mem_append] at hm
      rcases hm with h | h
      · exact hmsgs m h
      · exact hmsgs' m h
    | stateReq =>
      have hrest : x ∉ orderIdsOf rest := by
        intro h
        exact hi (by simp [orderIdsOf, h])
      obtain ⟨hmsgs', hbook'⟩ := ih (write_state st).1 x hb hrest
      refine ⟨?_, hbook'⟩
      intro m hm
      simp only [runFrom, stepInput, List.mem_append] at hm
      rcases hm with h | h
      · exact absurd h (List.not_mem_nil m)
      · exact hmsgs' m h

/-- Running a concatenation of inputs runs the pieces in sequence. -/
theorem runFrom_append (l1 : List Input) :
    ∀ (st : Matcher) (l2 : List Input),
    runFrom st (l1 ++ l2) =
      ⟨(runFrom (runFrom st l1).st l2).st,
       (runFrom st l1).journal ++ (runFrom (runFrom st l1).st l2).journal,
       (runFrom st l1).snaps ++ (runFrom (runFrom st l1).st l2).snaps,
       (runFrom st l1).feed ++ (runFrom (runFrom st l1).st l2).feed⟩ := by
  induction l1 with
  | nil => intro st l2; simp [runFrom]
  | cons i rest ih =>
    intro st l2
    rw [List.cons_append]
    simp only [runFrom]
    rw [ih ((stepInput st i).st) l2]
    simp [List.append_assoc]

/-- C6: the order handler publishes `order_status received` before invoking
`OrderBook.add`, so for an order id never used before, the first feed
envelope mentioning that id in the whole run is its `received` status:
every earlier envelope mentions other ids only. -/
theorem received_precedes_all (pre post : List Input) (id sender : String)
    (side : Side) (price size : Nat) (hfresh : id ∉ orderIdsOf pre) :
    ∃ k q : Nat,
      (engineRun (pre ++ Input.order id sender side price size :: post)).feed[k]? =
        some (⟨"order_status", q, .status_received side id sender price size⟩ : FeedMsg) ∧
      ∀ j : Nat, j < k →
        ∀ m : FeedMsg, (engineRun (pre ++ Input.order id sender side price size :: post)).feed[j]? =
          some m → m.mentions id = false := by
  have hsplit := runFrom_append pre (write_state initMatcher).1
    (Input.order id sender side price size :: post)
  have hfeed : (engineRun (pre ++ Input.order id sender side price size :: post)).feed =
      (runFrom (write_state initMatcher).1 pre).feed ++
      (runFrom (runFrom (write_state initMatcher).1 pre).st
        (Input.order id sender side price size :: post)).feed := by
    simp only [engineRun]
    rw [hsplit]
  obtain ⟨hA, hAbook⟩ := runFrom_not_mentions pre (write_state initMatcher).1 id
    (by simp [write_state, initMatcher, OrderBook.ids]) hfresh
  refine ⟨(runFrom (write_state initMatcher).1 pre).feed.length,
    (runFrom (write_state initMatcher).1 pre).st.output_seq, ?_, ?_⟩
  · rw [hfeed, List.getElem?_append_right (Nat.le_refl _)]
    simp [runFrom, stepInput, applyOrder]
  · intro j hj m hm
    rw [hfeed, List.getElem?_append_left hj] at hm
    exact hA m (List.get?_mem ((List.get?_eq_getElem? _ _).trans hm))

/-- Witness for `received_precedes_all`: a single fresh order on a fresh
engine. -/
theorem received_precedes_all_witness :
    ("A" : String) ∉ orderIdsOf [] ∧
    (∃ k q : Nat,
      (engineRun ([] ++ Input.order "A" "u1" Side.buy 100 10 :: [])).feed[k]? =
        some (⟨"order_status", q, .status_received Side.buy "A" "u1" 100 10⟩ : FeedMsg) ∧
      ∀ j : Nat, j < k →
        ∀ m : FeedMsg, (engineRun ([] ++ Input.order "A" "u1" Side.buy 100 10 :: [])).feed[j]? =
          some m → m.mentions "A" = false) :=
  ⟨by simp [orderIdsOf],
   received_precedes_all [] [] "A" "u1" Side.buy 100 10 (by simp [orderIdsOf])⟩

/-! ## Output sequence numbering (C3) -/

/-- One envelope per event. -/
theorem publishEvents_length (evs : List BookEvent) : ∀ q : Nat,
    (publishEvents q evs).2.length = evs.length := by
  induction evs with
  | nil => intro q; rfl
  | cons e rest ih => intro q; simp [publishEvents, ih (q + 1)]

/-- `send_feed_msg` stamps consecutive sequence numbers over a burst of
events and advances `output_seq` by their count. -/
theorem publishEvents_seqs (evs : List BookEvent) : ∀ q : Nat,
    (publishEvents q evs).2.map FeedMsg.seq = List.range' q evs.length ∧
    (publishEvents q evs).1 = q + evs.length := by
  induction evs with
  | nil => intro q; simp [publishEvents]
  | cons e rest ih =>
    intro q
    obtain ⟨h1, h2⟩ := ih (q + 1)
    constructor
    · simp only [publishEvents, List.map_cons, h1, List.length_cons, List.range'_succ]
      cases e <;> rfl
    · simp only [publishEvents, h2, List.length_cons]
      omega

/-- The published envelopes of one handled input carry consecutive
sequence numbers continuing from `output_seq`, which advances by their
count. -/
theorem stepInput_seqs (st : Matcher) (i : Input) :
    (stepInput st i).feed.map FeedMsg.seq =
      List.range' st.output_seq (stepInput st i).feed.length ∧
    (stepInput st i).st.output_seq = st.output_seq + (stepInput st i).feed.length := by
  cases i with
  | order id sender side price size =>
    obtain ⟨h1, h2⟩ := publishEvents_seqs
      (st.order_book.add ⟨id, sender, side, price, size, false⟩).2 (st.output_seq + 1)
    have hlen := publishEvents_length
      (st.order_book.add ⟨id, sender, side, price, size, false⟩).2 (st.output_seq + 1)
    simp only [stepInput, applyOrder, List.map_cons, List.length_cons, h1, hlen, h2]
    constructor
    · rw [List.range'_succ]
    · omega
  | cancel oid sid =>
    cases hrem : st.order_book.remove oid sid with
    | error e => simp [stepInput, cancelHandler, hrem]
    | ok r =>
      obtain ⟨h1, h2⟩ := publishEvents_seqs [.remove_order r.2] st.output_seq
      have hlen := publishEvents_length [.remove_order r.2] st.output_seq
      simp only [stepInput, cancelHandler, hrem, h1, h2, hlen, List.length_singleton]
      exact ⟨trivial, trivial⟩
  | stateReq => simp [stepInput, write_state]

/-- Two consecutive runs of consecutive numbers glue. -/
theorem range'_glue (a : Nat) : ∀ s b : Nat,
    List.range' s a ++ List.range' (s + a) b = List.range' s (a + b) := by
  induction a with
  | zero => intro s b; simp
  | succ n ih =>
    intro s b
    rw [List.range'_succ, show s + (n + 1) = (s + 1) + n from by omega, List.cons_append,
      ih (s + 1) b, show n + 1 + b = (n + b) + 1 from by omega, List.range'_succ]

/-- Over any run segment the feed sequence numbers are consecutive from the
starting `output_seq`, which advances by the number of envelopes. -/
theorem runFrom_seqs (l : List Input) : ∀ st : Matcher,
    (runFrom st l).feed.map FeedMsg.seq =
      List.range' st.output_seq (runFrom st l).feed.length ∧
    (runFrom st l).st.output_seq = st.output_seq + (runFrom st l).feed.length := by
  induction l with
  | nil => intro st; simp [runFrom]
  | cons i rest ih =>
    intro st
    obtain ⟨h1, h2⟩ := stepInput_seqs st i
    obtain ⟨h1', h2'⟩ := ih (stepInput st i).st
    simp only [runFrom, List.map_append, List.length_append, h1, h1', h2, h2']
    constructor
    · rw [range'_glue]
    · omega

/-- A load step publishes consecutively from the current `output_seq` and
advances it by the count. -/
theorem loadStep_seqs (p : Matcher × List FeedMsg) (o : Order) :
    (loadStep p o).2.map FeedMsg.seq =
      p.2.map FeedMsg.seq ++
        List.range' p.1.output_seq ((loadStep p o).2.length - p.2.length) ∧
    (loadStep p o).1.output_seq =
      p.1.output_seq + ((loadStep p o).2.length - p.2.length) ∧
    p.2.length ≤ (loadStep p o).2.length := by
  obtain ⟨h1, h2⟩ := publishEvents_seqs (p.1.order_book.add o).2 p.1.output_seq
  have hlen := publishEvents_length (p.1.order_book.add o).2 p.1.output_seq
  simp only [loadStep, List.map_append, List.length_append, h1, h2, hlen]
  refine ⟨by simp [hlen], by simp [hlen], by omega⟩

/-- Folding snapshot orders publishes consecutively from the current
`output_seq`. -/
theorem loadFold_seqs (l : List Order) : ∀ p : Matcher × List FeedMsg,
    (l.foldl loadStep p).2.map FeedMsg.seq =
      p.2.map FeedMsg.seq ++
        List.range' p.1.output_seq ((l.foldl loadStep p).2.length - p.2.length) ∧
    (l.foldl loadStep p).1.output_seq =
      p.1.output_seq + ((l.foldl loadStep p).2.length - p.2.length) ∧
    p.2.length ≤ (l.foldl loadStep p).2.length := by
  induction l with
  | nil => intro p; simp
  | cons o rest ih =>
    intro p
    rw [List.foldl_cons]
    obtain ⟨g1, g2, g3⟩ := loadStep_seqs p o
    obtain ⟨h1, h2, h3⟩ := ih (loadStep p o)
    refine ⟨?_, ?_, by omega⟩
    · rw [h1, g1, g2, List.append_assoc, range'_glue]
      congr 2
      omega
    · rw [h2, g2]
      omega

/-- The snapshot-load phase of recovery publishes envelopes whose sequence
numbers continue from the matcher's *pre-load* `output_seq`; only after the
load is `output_seq` overwritten from the snapshot. -/
theorem loadSnapshot_seqs (st : Matcher) (snap : Snapshot) :
    (loadSnapshot st snap).2.map FeedMsg.seq =
      List.range' st.output_seq (loadSnapshot st snap).2.length ∧
    (loadSnapshot st snap).1.output_seq = snap.output_seq := by
  obtain ⟨h1, h2, h3⟩ :=
    loadFold_seqs (snap.bids.map fun od => { od with side := Side.buy }) (st, [])
  obtain ⟨g1, g2, g3⟩ :=
    loadFold_seqs (snap.asks.map fun od => { od with side := Side.sell })
      ((snap.bids.map fun od => { od with side := Side.buy }).foldl loadStep (st, []))
  unfold loadSnapshot
  refine ⟨?_, rfl⟩
  simp only [List.map_nil, List.nil_append, List.length_nil, Nat.sub_zero] at h1 h2 h3
  simp only [g1, h1, h2]
  rw [range'_glue]
  congr 1
  omega

/-- A replayed record publishes consecutively from `output_seq`. -/
theorem replayRecord_seqs (st : Matcher) (r : JRecord) :
    (replayRecord st r).2.map FeedMsg.seq =
      List.range' st.output_seq (replayRecord st r).2.length ∧
    (replayRecord st r).1.output_seq = st.output_seq + (replayRecord st r).2.length := by
  cases r with
  | order id sender side price size =>
    exact stepInput_seqs st (.order id sender side price size)
  | cancel oid sid =>
    cases hrem : st.order_book.remove oid sid with
    | error e => simp [replayRecord, cancelHandler, hrem]
    | ok r =>
      obtain ⟨h1, h2⟩ := publishEvents_seqs [.remove_order r.2] st.output_seq
      have hlen := publishEvents_length [.remove_order r.2] st.output_seq
      simp only [replayRecord, cancelHandler, hrem, h1, h2, hlen, List.length_singleton]
      exact ⟨trivial, trivial⟩
  | state n => simp [replayRecord]

/-- Journal replay publishes consecutively from the (restored)
`output_seq`. -/
theorem replayLines_seqs (lines : List JRecord) : ∀ (jsn : Nat) (st : Matcher) (pb : Bool),
    (replayLines jsn st pb lines).2.2.map FeedMsg.seq =
      List.range' st.output_seq (replayLines jsn st pb lines).2.2.length ∧
    (replayLines jsn st pb lines).1.output_seq =
      st.output_seq + (replayLines jsn st pb lines).2.2.length := by
  induction lines with
  | nil => intro jsn st pb; simp [replayLines]
  | cons r rest ih =>
    intro jsn st pb
    simp only [replayLines]
    split
    · exact ih jsn st true
    · split
      · obtain ⟨g1, g2⟩ := replayRecord_seqs st r
        obtain ⟨h1, h2⟩ := ih jsn (replayRecord st r).1 true
        simp only [List.map_append, List.length_append, g1, h1, g2, h2]
        constructor
        · rw [range'_glue]
        · omega
      · exact ih jsn st pb

/-- C3 fails as stated: on a fresh restart the snapshot-load phase
re-publishes `open` envelopes stamped from the *reset* `output_seq` (0),
before `output_seq` is restored from the snapshot.  Concretely: after a run
of one resting order and one snapshot (stored `output_seq = 2`), the
recovered lifetime publishes seq 0 (load-phase `open`) and then seq 2 (a
replayed-later cancel), so the lifetime's seq values are neither
consecutive-by-one (`[0, 1]`) nor a continuation of the snapshot's counter
(`[2, 3]`). -/
theorem output_seq_counterexample :
    (engineRun [ .order "A" "u1" .buy 100 10, .stateReq ]).snaps.getLast?
      = some (1, ⟨[⟨"A", "u1", .buy, 100, 10, false⟩], [], 2, 2⟩) ∧
    ((recover initMatcher
        (.ok ((engineRun [ .order "A" "u1" .buy 100 10, .stateReq ]).snaps.map Prod.fst))
        (snapFileOf (engineRun [ .order "A" "u1" .buy 100 10, .stateReq ]).snaps)
        (.ok (engineRun [ .order "A" "u1" .buy 100 10, .stateReq ]).journal)).pubs ++
      (runFrom (recover initMatcher
        (.ok ((engineRun [ .order "A" "u1" .buy 100 10, .stateReq ]).snaps.map Prod.fst))
        (snapFileOf (engineRun [ .order "A" "u1" .buy 100 10, .stateReq ]).snaps)
        (.ok (engineRun [ .order "A" "u1" .buy 100 10, .stateReq ]).journal)).st
        [ .cancel "A" "u1" ]).feed).map FeedMsg.seq = [0, 2] ∧
    ([0, 2] : List Nat) ≠ [0, 1] ∧ ([0, 2] : List Nat) ≠ [2, 3] := by
  exact ⟨rfl, rfl, by decide, by decide⟩

/-- C3 as amended: (a) on a fresh engine the whole lifetime's feed seqs are
exactly 0, 1, 2, … and `output_seq` ends equal to the number of envelopes;
(b) any run segment publishes consecutively from its starting `output_seq`;
(c) the snapshot-load phase of recovery publishes consecutively from the
*pre-load* `output_seq` (0 on a fresh restart), and only then is
`output_seq` restored from the snapshot; (d) journal replay (and everything
after) publishes consecutively from the restored value. -/
theorem output_seq_consecutive_amended :
    (∀ inputs : List Input,
      (engineRun inputs).feed.map FeedMsg.seq = List.range (engineRun inputs).feed.length ∧
      (engineRun inputs).st.output_seq = (engineRun inputs).feed.length) ∧
    (∀ (st : Matcher) (l : List Input),
      (runFrom st l).feed.map FeedMsg.seq =
        List.range' st.output_seq (runFrom st l).feed.length ∧
      (runFrom st l).st.output_seq = st.output_seq + (runFrom st l).feed.length) ∧
    (∀ (st : Matcher) (snap : Snapshot),
      (loadSnapshot st snap).2.map FeedMsg.seq =
        List.range' st.output_seq (loadSnapshot st snap).2.length ∧
      (loadSnapshot st snap).1.output_seq = snap.output_seq) ∧
    (∀ (jsn : Nat) (st : Matcher) (pb : Bool) (lines : List JRecord),
      (replayLines jsn st pb lines).2.2.map FeedMsg.seq =
        List.range' st.output_seq (replayLines jsn st pb lines).2.2.length ∧
      (replayLines jsn st pb lines).1.output_seq =
        st.output_seq + (replayLines jsn st pb lines).2.2.length) := by
  refine ⟨?_, fun st l => runFrom_seqs l st, fun st snap => loadSnapshot_seqs st snap,
    fun jsn st pb lines => replayLines_seqs lines jsn st pb⟩
  intro inputs
  obtain ⟨h1, h2⟩ := runFrom_seqs inputs (write_state initMatcher).1
  have hw : (write_state initMatcher).1.output_seq = 0 := rfl
  have hfeed : (engineRun inputs).feed = (runFrom (write_state initMatcher).1 inputs).feed := rfl
  have hst : (engineRun inputs).st = (runFrom (write_state initMatcher).1 inputs).st := rfl
  rw [hfeed, hst, h1, h2, hw, List.range_eq_range']
  exact ⟨rfl, Nat.zero_add _⟩

/-! ## Recovery equivalence (C1) -/

/-- Replaying a concatenation replays the pieces in sequence. -/
theorem replayList_append (l1 : List JRecord) : ∀ (st : Matcher) (l2 : List JRecord),
    replayList st (l1 ++ l2) = replayList (replayList st l1) l2 := by
  induction l1 with
  | nil => intro st l2; rfl
  | cons r rest ih =>
    intro st l2
    simp only [List.cons_append, replayList]
    exact ih (replayRecord st r).1 l2

/-- Handlers never touch `state_num`. -/
theorem replayRecord_state_num (st : Matcher) (r : JRecord) :
    (replayRecord st r).1.state_num = st.state_num := by
  cases r with
  | order id sender side price size => rfl
  | cancel oid sid =>
    simp only [replayRecord, cancelHandler]
    cases st.order_book.remove oid sid <;> rfl
  | state n => rfl

/-- Replay never touches `state_num`. -/
theorem replayList_state_num (l : List JRecord) : ∀ st : Matcher,
    (replayList st l).state_num = st.state_num := by
  induction l with
  | nil => intro st; rfl
  | cons r rest ih =>
    intro st
    simp only [replayList, ih, replayRecord_state_num]

/-- The cancel handler's state and feed do not depend on the presence of the
reply emitter. -/
theorem cancelHandler_ev_indep (b : Bool) (st : Matcher) (oid sid : String) :
    (cancelHandler b st oid sid).1 = (cancelHandler true st oid sid).1 ∧
    (cancelHandler b st oid sid).2.1 = (cancelHandler true st oid sid).2.1 := by
  simp only [cancelHandler]
  cases st.order_book.remove oid sid <;> exact ⟨rfl, rfl⟩

/-- An element given by `getLast?` is in the list. -/
theorem mem_of_getLast? {α : Type} (l : List α) (x : α) (h : l.getLast? = some x) :
    x ∈ l := by
  obtain ⟨hne, hx⟩ := List.mem_getLast?_eq_getLast (l := l) (x := x) h
  rw [hx]
  exact List.getLast_mem hne

/-- In a strictly increasing list, the last element bounds every element. -/
theorem pairwise_lt_getLast_ub (l : List Nat) : ∀ n : Nat, l.Pairwise (· < ·) →
    l.getLast? = some n → ∀ k ∈ l, k ≤ n := by
  induction l with
  | nil => intro n _ _ k hk; exact absurd hk (List.not_mem_nil k)
  | cons m rest ih =>
    intro n hp hl k hk
    cases rest with
    | nil =>
      simp only [List.getLast?_singleton, Option.some.injEq] at hl
      simp only [List.mem_singleton] at hk
      omega
    | cons m2 r2 =>
      rw [List.getLast?_cons_cons] at hl
      rcases List.mem_cons.mp hk with h | h
      · subst h
        have hm2 : m2 ≤ n := ih n hp.of_cons hl m2 (List.mem_cons_self m2 r2)
        have := List.rel_of_pairwise_cons hp (List.mem_cons_self m2 r2)
        omega
      · exact ih n hp.of_cons hl k h

/-- On a strictly increasing set of state-file numbers, the descending-sort-
and-take-first selection picks the last (greatest) one. -/
theorem pickLatest_sorted (l : List Nat) (h : l.Pairwise (· < ·)) :
    pickLatest l = l.getLast? := by
  induction l with
  | nil => rfl
  | cons n rest ih =>
    cases rest with
    | nil => rfl
    | cons m r2 =>
      obtain ⟨M, hM⟩ : ∃ M, (m :: r2).getLast? = some M :=
        ⟨(m :: r2).getLast (List.cons_ne_nil m r2),
          List.getLast?_eq_getLast_of_ne_nil (List.cons_ne_nil m r2)⟩
      have hMm : M ∈ m :: r2 := mem_of_getLast? (m :: r2) M hM
      have hnM : n < M := List.rel_of_pairwise_cons h hMm
      rw [List.getLast?_cons_cons, hM]
      rw [← ih h.of_cons] at hM
      show (match pickLatest (m :: r2) with
        | none => some n
        | some k => some (if n < k then k else n)) = some M
      rw [hM]
      simp [if_pos hnM]

/-- The first state file found with the latest number is the latest
snapshot. -/
theorem snapFileOf_getLast (snaps : List (Nat × Snapshot)) : ∀ (n : Nat) (snap : Snapshot),
    (snaps.map Prod.fst).Pairwise (· < ·) → snaps.getLast? = some (n, snap) →
    snapFileOf snaps n = .ok snap := by
  induction snaps with
  | nil => intro n snap _ h; cases h
  | cons p rest ih =>
    intro n snap hp hl
    cases rest with
    | nil =>
      simp only [List.getLast?_singleton, Option.some.injEq] at hl
      subst hl
      simp [snapFileOf, List.find?]
    | cons p2 r2 =>
      rw [List.getLast?_cons_cons] at hl
      have hmem : (n, snap) ∈ p2 :: r2 := mem_of_getLast? (p2 :: r2) (n, snap) hl
      have hnmem : n ∈ (p2 :: r2).map Prod.fst := List.mem_map.mpr ⟨(n, snap), hmem, rfl⟩
      have hlt : p.1 < n := by
        have := List.rel_of_pairwise_cons (by simpa using hp) hnmem
        exact this
      have hne : ¬(p.1 = n) := by omega
      have := ih n snap (by simpa using hp.of_cons) hl
      have hfind : ((p :: p2 :: r2).find? fun q => q.1 = n) =
          ((p2 :: r2).find? fun q => q.1 = n) :=
        List.find?_cons_of_neg _ (by simp [hne])
      simp only [snapFileOf] at this ⊢
      rw [hfind]
      exact this

/-- The journal scan skips everything before the marker: records that are
not the marker are ignored while `playback` is off. -/
theorem replayLines_skip (pre : List JRecord) : ∀ (n : Nat) (st : Matcher)
    (rest : List JRecord), (∀ k, JRecord.state k ∈ pre → k ≠ n) →
    replayLines n st false (pre ++ rest) = replayLines n st false rest := by
  induction pre with
  | nil => intro n st rest _; rfl
  | cons r pre' ih =>
    intro n st rest hpre
    have hne : ¬(r = JRecord.state n) := by
      intro h
      subst h
      exact hpre n (List.mem_cons_self _ _) rfl
    simp only [List.cons_append, replayLines, if_neg hne, if_neg (Bool.false_ne_true)]
    exact ih n st rest fun k hk => hpre k (List.mem_cons_of_mem r hk)

/-- Once the marker has been seen, a marker-free suffix is replayed record
by record with feed publishing enabled. -/
theorem replayLines_run (suf : List JRecord) : ∀ (n : Nat) (st : Matcher),
    (∀ r ∈ suf, ∀ k, r ≠ JRecord.state k) →
    (replayLines n st true suf).1 = replayList st suf ∧
    (replayLines n st true suf).2.1 = true := by
  induction suf with
  | nil => intro n st _; exact ⟨rfl, rfl⟩
  | cons r rest ih =>
    intro n st hsuf
    have hne : ¬(r = JRecord.state n) := hsuf r (List.mem_cons_self r rest) n
    simp only [replayLines, if_neg hne, if_pos rfl]
    obtain ⟨h1, h2⟩ := ih n (replayRecord st r).1
      (fun x hx k => hsuf x (List.mem_cons_of_mem r hx) k)
    exact ⟨h1, h2⟩

/-- The cancel handler preserves the book invariants. -/
theorem cancelHandler_wf (b : Bool) (st : Matcher) (oid sid : String)
    (hwf : BookWF st.order_book) :
    BookWF (cancelHandler b st oid sid).1.order_book := by
  unfold cancelHandler
  cases hrem : st.order_book.remove oid sid with
  | error e => exact hwf
  | ok r => exact remove_BookWF _ oid sid r.1 r.2 hwf (by rw [hrem])

/-- One steady-state input preserves the run invariant. -/
theorem stepInput_inv (st : Matcher) (i : Input) (journal : List JRecord)
    (snaps : List (Nat × Snapshot)) (h : RunInv st journal snaps) :
    RunInv (stepInput st i).st (journal ++ (stepInput st i).journal)
      (snaps ++ (stepInput st i).snaps) := by
  have hwf := h.wf
  obtain ⟨pre, suf, n, snap, hj, hlast, hpw, hsn, hswf, hpre, hsuf, hrep⟩ := h.ex
  cases i with
  | order id sender side price size =>
    simp only [stepInput, List.append_nil]
    refine ⟨add_BookWF st.order_book ⟨id, sender, side, price, size, false⟩ hwf rfl,
      pre, suf ++ [JRecord.order id sender side price size], n, snap, ?_, ?_, hpw, hsn,
      hswf, hpre, ?_, ?_⟩
    · rw [hj]
      simp [List.append_assoc]
    · exact hlast
    · intro r hr k
      rcases List.mem_append.mp hr with h' | h'
      · exact hsuf r h' k
      · simp only [List.mem_singleton] at h'
        subst h'
        simp
    · rw [replayList_append, hrep]
      rfl
  | cancel oid sid =>
    simp only [stepInput, List.append_nil]
    refine ⟨cancelHandler_wf true st oid sid hwf,
      pre, suf ++ [JRecord.cancel oid sid], n, snap, ?_, ?_, hpw, hsn,
      hswf, hpre, ?_, ?_⟩
    · rw [hj]
      simp [List.append_assoc]
    · exact hlast
    · intro r hr k
      rcases List.mem_append.mp hr with h' | h'
      · exact hsuf r h' k
      · simp only [List.mem_singleton] at h'
        subst h'
        simp
    · rw [replayList_append, hrep]
      show (replayRecord st (JRecord.cancel oid sid)).1 = (cancelHandler true st oid sid).1
      simp only [replayRecord]
      exact (cancelHandler_ev_indep false st oid sid).1
  | stateReq =>
    have hm : st.state_num = n + 1 := by
      rw [← hrep, replayList_state_num]
      exact hsn
    have hnums : (snaps.map Prod.fst).getLast? = some n := by
      rw [List.getLast?_map, hlast]
      rfl
    simp only [stepInput, write_state]
    refine ⟨hwf, pre ++ JRecord.state n :: suf, [], st.state_num,
      ⟨st.order_book.bids, st.order_book.asks, st.state_num + 1, st.output_seq⟩,
      ?_, ?_, ?_, rfl, hwf, ?_, ?_, rfl⟩
    · rw [hj]
    · simp [List.getLast?_concat]
    · simp only [List.map_append]
      refine List.pairwise_append.mpr ⟨hpw, by simp, ?_⟩
      intro a ha b hb
      simp only [List.map_cons, List.map_nil, List.mem_singleton] at hb
      subst hb
      have := pairwise_lt_getLast_ub (snaps.map Prod.fst) n hpw hnums a ha
      omega
    · intro k hk
      rcases List.mem_append.mp hk with h' | h'
      · have := hpre k h'
        omega
      · rcases List.mem_cons.mp h' with h'' | h''
        · injection h'' with h3
          omega
        · exact absurd rfl (hsuf _ h'' k)
    · intro r hr k
      exact absurd hr (List.not_mem_nil r)

/-- A whole run segment preserves the run invariant, accumulating journal
and snapshots. -/
theorem runFrom_inv (l : List Input) : ∀ (st : Matcher) (journal : List JRecord)
    (snaps : List (Nat × Snapshot)), RunInv st journal snaps →
    RunInv (runFrom st l).st (journal ++ (runFrom st l).journal)
      (snaps ++ (runFrom st l).snaps) := by
  induction l with
  | nil => intro st j s h; simpa [runFrom] using h
  | cons i rest ih =>
    intro st j s h
    have h2 := ih (stepInput st i).st (j ++ (stepInput st i).journal)
      (s ++ (stepInput st i).snaps) (stepInput_inv st i j s h)
    simpa [runFrom, List.append_assoc] using h2

/-- Every engine run satisfies the run invariant: `start` begins with a
fresh snapshot, and every input preserves it. -/
theorem engineRun_inv (inputs : List Input) :
    RunInv (engineRun inputs).st (engineRun inputs).journal (engineRun inputs).snaps := by
  have hbase : RunInv (write_state initMatcher).1 [(write_state initMatcher).2.1]
      [(write_state initMatcher).2.2] := by
    have hempty : BookWF ⟨[], []⟩ :=
      ⟨List.Pairwise.nil, List.Pairwise.nil,
        fun o ho => absurd ho (List.not_mem_nil o),
        fun o ho => absurd ho (List.not_mem_nil o),
        fun x hx => absurd hx (List.not_mem_nil x)⟩
    refine ⟨hempty, [], [], 0, ⟨[], [], 1, 0⟩, rfl, rfl, by simp, rfl, hempty,
      by simp, by simp, rfl⟩
  have h := runFrom_inv inputs (write_state initMatcher).1
    [(write_state initMatcher).2.1] [(write_state initMatcher).2.2] hbase
  simpa [engineRun, List.singleton_append] using h

/-- C1: recovery equivalence.  For any pre-crash run, restarting a fresh
matcher, selecting the latest snapshot, loading it, and replaying the
inbound journal from the record after the marker `state(state_num - 1)`
through the steady-state handlers with feed publishing enabled reproduces
exactly the pre-crash book state and `output_seq` (no error is surfaced and
the marker is found). -/
theorem recovery_equivalence (inputs : List Input) :
    (recover initMatcher (.ok ((engineRun inputs).snaps.map Prod.fst))
        (snapFileOf (engineRun inputs).snaps)
        (.ok (engineRun inputs).journal)).st.order_book =
      (engineRun inputs).st.order_book ∧
    (recover initMatcher (.ok ((engineRun inputs).snaps.map Prod.fst))
        (snapFileOf (engineRun inputs).snaps)
        (.ok (engineRun inputs).journal)).st.output_seq =
      (engineRun inputs).st.output_seq ∧
    (recover initMatcher (.ok ((engineRun inputs).snaps.map Prod.fst))
        (snapFileOf (engineRun inputs).snaps)
        (.ok (engineRun inputs).journal)).crashed = false ∧
    (recover initMatcher (.ok ((engineRun inputs).snaps.map Prod.fst))
        (snapFileOf (engineRun inputs).snaps)
        (.ok (engineRun inputs).journal)).markerFound = true := by
  obtain ⟨pre, suf, n, snap, hj, hlast, hpw, hsn, hswf, hpre, hsuf, hrep⟩ :=
    (engineRun_inv inputs).ex
  have hnums : ((engineRun inputs).snaps.map Prod.fst).getLast? = some n := by
    rw [List.getLast?_map, hlast]
    rfl
  have hpick : pickLatest ((engineRun inputs).snaps.map Prod.fst) = some n := by
    rw [pickLatest_sorted _ hpw, hnums]
  have hfile : snapFileOf (engineRun inputs).snaps n = .ok snap :=
    snapFileOf_getLast _ n snap hpw hlast
  obtain ⟨hbp, hap, hbs, has, hun⟩ := hswf
  obtain ⟨hload, _⟩ := loadSnapshot_ok 0 0 snap hbp hap hbs has hun
  have hload' : (loadSnapshot initMatcher snap).1 = snapMatcher snap := hload
  have hjsn : (snapMatcher snap).state_num - 1 = n := by
    show snap.state_num - 1 = n
    omega
  have hskip := replayLines_skip pre n (snapMatcher snap) (JRecord.state n :: suf)
    (fun k hk => by have := hpre k hk; omega)
  have hmark : replayLines n (snapMatcher snap) false (JRecord.state n :: suf) =
      replayLines n (snapMatcher snap) true suf := by
    simp [replayLines]
  obtain ⟨hrun1, hrun2⟩ := replayLines_run suf n (snapMatcher snap) hsuf
  have hfull1 : (replayLines n (snapMatcher snap) false
      (engineRun inputs).journal).1 = (engineRun inputs).st := by
    rw [hj, hskip, hmark, hrun1, hrep]
  have hfull2 : (replayLines n (snapMatcher snap) false
      (engineRun inputs).journal).2.1 = true := by
    rw [hj, hskip, hmark, hrun2]
  simp only [recover, hpick, hfile, hload', hjsn]
  rw [hfull1, hfull2]
  exact ⟨rfl, rfl, trivial, rfl⟩
